import Mathlib

set_option maxRecDepth 1000000

/-
Verification of the signature-scanning and extent-estimation engine of the
SMARTPI-Android firmware extraction tools.

The development shallowly embeds the two Python scanners:
  * src/tools/awimage_extract.py        (namespace AW,   the simplified variant)
  * src/tools/extract_allwinner_image.py (namespace Full, the full variant)

Byte buffers are lists of naturals (each element a byte value).  Python byte
slices data[a:b] are modelled by pySlice, single-byte reads data[i] by byteAt,
and struct.unpack reads of little-endian fields by u16/u32/u64 with the
r16/r32/r64 variants returning none exactly when struct.unpack would raise
(slice shorter than the field width).  Loops are modelled structurally with an
explicit fuel argument whose initial value at each entry point dominates the
number of iterations the Python loop can perform, so the embedded functions
are computable by kernel reduction.
-/

namespace SmartPi

/-- Python data[i] read, with unreachable out-of-range reads defaulting to 0. -/
def byteAt (d : List Nat) (i : Nat) : Nat := d.getD i 0

/-- Python slice data[a:b] (for a <= b): truncates at the end of the buffer. -/
def pySlice (d : List Nat) (a b : Nat) : List Nat := (d.drop a).take (b - a)

theorem pySlice_length (d : List Nat) (a b : Nat) :
    (pySlice d a b).length = min (b - a) (d.length - a) := by
  simp [pySlice, Nat.min_comm]

theorem pySlice_getD (d : List Nat) (a b i : Nat) (h : i < (pySlice d a b).length) :
    (pySlice d a b).getD i 0 = byteAt d (a + i) := by
  have h1 : i < b - a := by
    have := pySlice_length d a b; omega
  have h2 : a + i < d.length := by
    have := pySlice_length d a b; omega
  simp only [pySlice, byteAt, List.getD_eq_getElem?_getD]
  rw [List.getElem?_take, if_pos h1, List.getElem?_drop]

theorem pySlice_eq_map (d : List Nat) (a k : Nat) (h : a + k ≤ d.length) :
    pySlice d a (a + k) = (List.range k).map (fun i => byteAt d (a + i)) := by
  apply List.ext_getElem
  · simp [pySlice_length]; omega
  · intro i h1 h2
    have h3 : i < (pySlice d a (a + k)).length := h1
    have := pySlice_getD d a (a + k) i h3
    simp only [List.getD_eq_getElem?_getD] at this
    simp only [List.getElem?_eq_getElem h1, Option.getD_some] at this
    simp [this, byteAt]

theorem pySlice_head (d : List Nat) (a b x : Nat) (xs : List Nat)
    (h : pySlice d a b = x :: xs) : byteAt d a = x := by
  have h0 : 0 < (pySlice d a b).length := by rw [h]; simp
  have := pySlice_getD d a b 0 h0
  rw [h] at this
  simpa using this.symm

theorem pySlice_append (d : List Nat) (a b c : Nat) (hab : a ≤ b) (hbc : b ≤ c) :
    pySlice d a c = pySlice d a b ++ pySlice d b c := by
  have h1 : c - a = (b - a) + (c - b) := by omega
  simp only [pySlice, h1, List.take_add, List.drop_take, List.drop_drop]
  have h2 : a + (b - a) = b := by omega
  rw [h2]

/-- Little-endian 16-bit value at index i (struct.unpack with format <H). -/
def u16 (d : List Nat) (i : Nat) : Nat := byteAt d i + 256 * byteAt d (i + 1)

/-- Little-endian 32-bit value at index i (struct.unpack with format <I). -/
def u32 (d : List Nat) (i : Nat) : Nat :=
  byteAt d i + 256 * byteAt d (i + 1) + 65536 * byteAt d (i + 2) +
    16777216 * byteAt d (i + 3)

/-- Little-endian 64-bit value at index i (struct.unpack with format <Q). -/
def u64 (d : List Nat) (i : Nat) : Nat :=
  u32 d i + 4294967296 * u32 d (i + 4)

/-- struct.unpack of a <H field: none exactly when the slice is too short. -/
def r16 (d : List Nat) (i : Nat) : Option Nat :=
  if i + 2 ≤ d.length then some (u16 d i) else none

/-- struct.unpack of a <I field: none exactly when the slice is too short. -/
def r32 (d : List Nat) (i : Nat) : Option Nat :=
  if i + 4 ≤ d.length then some (u32 d i) else none

/-- struct.unpack of a <Q field: none exactly when the slice is too short. -/
def r64 (d : List Nat) (i : Nat) : Option Nat :=
  if i + 8 ≤ d.length then some (u64 d i) else none

/-- The align helper of the boot-image size computation:
round size up to the next multiple of page. -/
def alignUp (size page : Nat) : Nat := ((size + page - 1) / page) * page

/-- Python substring membership pat in hay for byte strings. -/
def occursIn (pat : List Nat) : List Nat → Bool
  | [] => pat.isEmpty
  | b :: rest => pat.isPrefixOf (b :: rest) || occursIn pat rest

/-- One probe of Python bytes.find: loop body moving the cursor right by one. -/
def findFromGo (d pat : List Nat) : Nat → Nat → Option Nat
  | 0, _ => none
  | fuel + 1, i =>
    if pat.isPrefixOf (d.drop i) then some i
    else if i < d.length then findFromGo d pat fuel (i + 1) else none

/-- Python data.find(pat, start): least position at or after start where pat
occurs, none when absent. -/
def findFrom (d pat : List Nat) (start : Nat) : Option Nat :=
  findFromGo d pat (d.length + 1) start

/-- The byte rewriting of replace applied to build-property blocks:
null bytes become newlines. -/
def nullToNl (b : Nat) : Nat := if b = 0 then 10 else b

def androidMagic : List Nat := [65, 78, 68, 82, 79, 73, 68, 33]

def sparseMagic : List Nat := [58, 255, 38, 237]

def gzipMagic : List Nat := [31, 139]

def elfMagic : List Nat := [127, 69, 76, 70]

def productMarker : List Nat := [91, 112, 114, 111, 100, 117, 99, 116, 93]

def platformMarker : List Nat := [91, 112, 108, 97, 116, 102, 111, 114, 109, 93]

def targetMarker : List Nat := [91, 116, 97, 114, 103, 101, 116, 93]

def propMarker : List Nat := [114, 111, 46, 98, 117, 105, 108, 100, 46, 105, 100, 61]

/-- Lowercase zero-padded 8-digit hex rendering used by the sparse record name. -/
def hex8 (n : Nat) : String :=
  let cs := Nat.toDigits 16 n
  String.mk (List.replicate (8 - cs.length) '0' ++ cs)

namespace AW

/-- A partition record of AWImageExtractor.find_partitions. -/
structure Partition where
  type : String
  offset : Nat
  size : Nat
  name : String
deriving Repr, DecidableEq

/-- The boot-image branch of find_partitions at one probe offset: parses the
kernel size, ramdisk size and page size fields with struct.unpack, which
raises (error) when the buffer is too short for a field. -/
def bootAt (d : List Nat) (offset : Nat) : Except Unit (List Partition) :=
  if pySlice d offset (offset + 8) = androidMagic then
    match r32 d (offset + 8), r32 d (offset + 16), r32 d (offset + 36) with
    | some kernelSize, some ramdiskSize, some pageField =>
      let pageSize := if pageField = 0 then 2048 else pageField
      let total := pageSize + alignUp kernelSize pageSize + alignUp ramdiskSize pageSize
      .ok [⟨"boot.img", offset, min total (64 * 1024 * 1024), "boot.img"⟩]
    | _, _, _ => .error ()
  else .ok []

/-- The sparse-image branch of find_partitions at one probe offset. -/
def sparseAt (d : List Nat) (offset : Nat) : List Partition :=
  if pySlice d offset (offset + 4) = sparseMagic then
    [⟨"sparse", offset, 0, "sparse_" ++ hex8 offset ++ ".img"⟩]
  else []

/-- The find_partitions scan loop: probe every 512 bytes while offset < len. -/
def findPartitionsGo (d : List Nat) : Nat → Nat → Except Unit (List Partition)
  | 0, _ => .ok []
  | fuel + 1, offset =>
    if offset < d.length then
      match bootAt d offset with
      | .error e => .error e
      | .ok found =>
        match findPartitionsGo d fuel (offset + 512) with
        | .error e => .error e
        | .ok rest => .ok (found ++ sparseAt d offset ++ rest)
    else .ok []

/-- AWImageExtractor.find_partitions.  An error value models the uncaught
struct.error that aborts the scan when a boot-image header field cannot be
read. -/
def findPartitions (d : List Nat) : Except Unit (List Partition) :=
  findPartitionsGo d (d.length / 512 + 1) 0

/-- The loop body of extract_strings: the accumulator holds the current run of
printable bytes, flushed only when a non-printable byte is seen.  Bytes 32..126
always decode as ASCII, so the try/except around decode never skips a string. -/
def extractStringsGo (minLength : Nat) : List Nat → List Nat → List (List Nat)
  | _, [] => []
  | cur, b :: rest =>
    if 32 ≤ b ∧ b < 127 then extractStringsGo minLength (cur ++ [b]) rest
    else (if minLength ≤ cur.length then [cur] else []) ++ extractStringsGo minLength [] rest

/-- AWImageExtractor.extract_strings. -/
def extractStrings (d : List Nat) (minLength : Nat) : List (List Nat) :=
  extractStringsGo minLength [] d

/-- The filler census of extract_fex_configs: how many of the next
min(16, len - e) bytes are null or 0xff. -/
def countFill (d : List Nat) (e : Nat) : Nat :=
  (List.range (min 16 (d.length - e))).countP
    (fun i => byteAt d (e + i) == 0 || byteAt d (e + i) == 255)

/-- The end-of-config scan of extract_fex_configs: advance until a 4-byte
all-null or all-0xff slice is seen with more than 8 filler bytes among the
next 16, or the window/buffer is exhausted. -/
def fexEndGo (d : List Nat) (pos : Nat) : Nat → Nat → Nat
  | 0, e => e
  | fuel + 1, e =>
    if e < d.length ∧ e - pos < 100000 then
      if (pySlice d e (e + 4) = [0, 0, 0, 0] ∨ pySlice d e (e + 4) = [255, 255, 255, 255])
          ∧ 8 < countFill d e then e
      else fexEndGo d pos fuel (e + 1)
    else e

def fexEnd (d : List Nat) (pos : Nat) : Nat := fexEndGo d pos (d.length + 1) pos

/-- A config dict of extract_fex_configs. -/
structure FexConfig where
  offset : Nat
  size : Nat
  data : List Nat
deriving Repr, DecidableEq

/-- The per-match emission decision of extract_fex_configs: a candidate is
kept only when its span exceeds 100 bytes. -/
def fexCandidate (d : List Nat) (pos : Nat) : Option FexConfig :=
  if pos + 100 < fexEnd d pos then
    some ⟨pos, fexEnd d pos - pos, pySlice d pos (fexEnd d pos)⟩
  else none

/-- The per-marker while-loop of extract_fex_configs: repeatedly find the next
marker occurrence, scan to its end, emit when large enough, resume at end. -/
def fexLoopGo (d marker : List Nat) : Nat → Nat → List FexConfig
  | 0, _ => []
  | fuel + 1, offset =>
    match findFrom d marker offset with
    | none => []
    | some pos =>
      let e := fexEnd d pos
      let rest := fexLoopGo d marker fuel e
      match fexCandidate d pos with
      | some c => c :: rest
      | none => rest

/-- AWImageExtractor.extract_fex_configs. -/
def extractFexConfigs (d : List Nat) : List FexConfig :=
  ([productMarker, platformMarker, targetMarker].map
    (fun m => fexLoopGo d m (d.length + 2) 0)).flatten

/-- The generic marker-to-filler end scan shared by the two build.prop
extractors: advance until the stop pattern appears at the cursor or the
window/buffer is exhausted. -/
def propEndGo (d stopPat : List Nat) (cap start : Nat) : Nat → Nat → Nat
  | 0, e => e
  | fuel + 1, e =>
    if e < d.length ∧ e - start < cap then
      if pySlice d e (e + stopPat.length) = stopPat then e
      else propEndGo d stopPat cap start fuel (e + 1)
    else e

def propEnd (d stopPat : List Nat) (cap start : Nat) : Nat :=
  propEndGo d stopPat cap start (d.length + 1) start

/-- The build.prop extraction inlined in AWImageExtractor.extract: find the
marker, scan to the first double-null within a 10000-byte window, and replace
every null byte of the block by a newline. -/
def extractBuildProp (d : List Nat) : Option (List Nat) :=
  match findFrom d propMarker 0 with
  | none => none
  | some s => some ((pySlice d s (propEnd d [0, 0] 10000 s)).map nullToNl)

end AW

namespace Full

/-- A partition dict of AllwinnerImageExtractor.find_all_partitions. -/
structure Part where
  type : String
  offset : Nat
  size : Nat
deriving Repr, DecidableEq

/-- AllwinnerImageExtractor._get_boot_img_size: read the kernel, ramdisk,
second and page-size fields, align each payload up to a page, clamp at 64 MiB;
any unreadable field raises and the except clause yields the 16 MiB default. -/
def getBootImgSize (d : List Nat) (offset : Nat) : Nat :=
  match r32 d (offset + 8), r32 d (offset + 16), r32 d (offset + 24), r32 d (offset + 36) with
  | some kernelSize, some ramdiskSize, some secondSize, some pageField =>
    let pageSize := if pageField = 0 then 2048 else pageField
    min (pageSize + alignUp kernelSize pageSize + alignUp ramdiskSize pageSize +
      alignUp secondSize pageSize) (64 * 1024 * 1024)
  | _, _, _, _ => 16 * 1024 * 1024

/-- AllwinnerImageExtractor._get_sparse_size: total_blocks at offset+16 times
block_size at offset+12, clamped at 1 GiB; unreadable fields raise and the
except clause yields the 512 MiB default. -/
def getSparseSize (d : List Nat) (offset : Nat) : Nat :=
  match r32 d (offset + 16), r32 d (offset + 12) with
  | some totalBlocks, some blockSize => min (totalBlocks * blockSize) (1024 * 1024 * 1024)
  | _, _ => 512 * 1024 * 1024

/-- One probe of the find_all_partitions scan: the elif chain over the boot,
sparse and gzip magics. -/
def partAt (d : List Nat) (offset : Nat) : List Part :=
  if pySlice d offset (offset + 8) = androidMagic then
    [⟨"boot.img", offset, getBootImgSize d offset⟩]
  else if pySlice d offset (offset + 4) = sparseMagic then
    [⟨"sparse", offset, getSparseSize d offset⟩]
  else if pySlice d offset (offset + 2) = gzipMagic then
    [⟨"gzip", offset, 0⟩]
  else []

/-- The find_all_partitions loop: probe every 512 bytes while
offset < len - 16. -/
def findAllGo (d : List Nat) : Nat → Nat → List Part
  | 0, _ => []
  | fuel + 1, offset =>
    if offset < d.length - 16 then
      partAt d offset ++ findAllGo d fuel (offset + 512)
    else []

/-- AllwinnerImageExtractor.find_all_partitions. -/
def findAllPartitions (d : List Nat) : List Part :=
  findAllGo d (d.length / 512 + 1) 0

/-- The sanity bound of _estimate_elf_size: results outside
[1000, 50 MiB] are replaced by the fixed 2 MiB default. -/
def elfSanity (s : Nat) : Nat :=
  if s < 1000 ∨ 50 * 1024 * 1024 < s then 2 * 1024 * 1024 else s

/-- AllwinnerImageExtractor._estimate_elf_size: the class byte at offset+4
selects the 64-bit or 32-bit field layout for the section-header-table offset,
entry size and entry count; an out-of-range class-byte read or an unreadable
field raises and the except clause yields the 2 MiB default. -/
def estimateElfSize (d : List Nat) (offset : Nat) : Nat :=
  if offset + 4 < d.length then
    if byteAt d (offset + 4) = 2 then
      match r64 d (offset + 40), r16 d (offset + 58), r16 d (offset + 60) with
      | some shOffset, some shEntsize, some shNum => elfSanity (shOffset + shEntsize * shNum)
      | _, _, _ => 2 * 1024 * 1024
    else
      match r32 d (offset + 32), r16 d (offset + 46), r16 d (offset + 48) with
      | some shOffset, some shEntsize, some shNum => elfSanity (shOffset + shEntsize * shNum)
      | _, _, _ => 2 * 1024 * 1024
  else 2 * 1024 * 1024

/-- The pattern list of _find_lib_name, in source order. -/
def libNamePatterns : List (List Nat) :=
  [ [108, 105, 98, 71, 76, 69, 83, 95, 109, 97, 108, 105, 46, 115, 111]
  , [108, 105, 98, 77, 97, 108, 105, 46, 115, 111]
  , [108, 105, 98, 85, 77, 80, 46, 115, 111]
  , [103, 114, 97, 108, 108, 111, 99, 46, 115, 117, 110, 56, 105, 46, 115, 111]
  , [103, 114, 97, 108, 108, 111, 99, 46, 115, 117, 110, 53, 48, 105, 46, 115, 111]
  , [104, 119, 99, 111, 109, 112, 111, 115, 101, 114, 46, 115, 117, 110, 56, 105, 46, 115, 111]
  , [104, 119, 99, 111, 109, 112, 111, 115, 101, 114, 46, 115, 117, 110, 53, 48, 105, 46, 115, 111]
  , [108, 105, 98, 99, 101, 100, 97, 114, 99, 46, 115, 111]
  , [108, 105, 98, 99, 101, 100, 97, 114, 120, 46, 115, 111]
  , [108, 105, 98, 99, 100, 99, 95, 98, 97, 115, 101, 46, 115, 111]
  , [108, 105, 98, 99, 100, 99, 95, 118, 100, 95, 104, 50, 54, 52, 46, 115, 111]
  , [108, 105, 98, 99, 100, 99, 95, 118, 100, 95, 104, 50, 54, 53, 46, 115, 111]
  , [108, 105, 98, 99, 100, 99, 95, 118, 100, 95, 109, 112, 101, 103, 50, 46, 115, 111]
  , [108, 105, 98, 99, 100, 99, 95, 118, 100, 95, 109, 112, 101, 103, 52, 46, 115, 111]
  , [108, 105, 98, 86, 69, 46, 115, 111]
  , [108, 105, 98, 77, 101, 109, 65, 100, 97, 112, 116, 101, 114, 46, 115, 111]
  , [108, 105, 98, 118, 100, 101, 99, 111, 100, 101, 114, 46, 115, 111]
  , [108, 105, 98, 118, 101, 110, 99, 111, 100, 101, 114, 46, 115, 111]
  , [97, 117, 100, 105, 111, 46, 112, 114, 105, 109, 97, 114, 121, 46, 115, 117, 110, 56, 105, 46, 115, 111]
  ]

/-- AllwinnerImageExtractor._find_lib_name: the first pattern of the list
occurring in the 10000-byte window after the header, none when no pattern
occurs. -/
def findLibName (d : List Nat) (offset : Nat) : Option (List Nat) :=
  libNamePatterns.find? (fun p => occursIn p (pySlice d offset (offset + 10000)))

/-- The substring allow-check of extract_libs_from_data applied to a found
name: mali, Mali, cedar, gralloc, hwcomposer, VE, UMP, sun8i. -/
def filterTokens : List (List Nat) :=
  [ [109, 97, 108, 105]
  , [77, 97, 108, 105]
  , [99, 101, 100, 97, 114]
  , [103, 114, 97, 108, 108, 111, 99]
  , [104, 119, 99, 111, 109, 112, 111, 115, 101, 114]
  , [86, 69]
  , [85, 77, 80]
  , [115, 117, 110, 56, 105]
  ]

def nameFilter (nm : List Nat) : Bool := filterTokens.any (fun p => occursIn p nm)

/-- A library artifact of extract_libs_from_data.  The names of the pattern
list contain no null bytes, so the strip of trailing nulls leaves the found
pattern unchanged and the record keeps the raw pattern bytes. -/
structure LibRecord where
  name : List Nat
  offset : Nat
  size : Nat
deriving Repr, DecidableEq

/-- The candidate decision of one probe of extract_libs_from_data: the ELF
magic, the ET_DYN type check (the u16 read is guarded by the loop bound
offset < len - 100, hence never out of range), the name search and the
substring allow-check.  The loop guard makes the type-field read total. -/
def libCandidate (d : List Nat) (offset : Nat) : Option LibRecord :=
  if pySlice d offset (offset + 4) = elfMagic then
    if u16 d (offset + 16) = 3 then
      match findLibName d offset with
      | some nm =>
        if nameFilter nm then some ⟨nm, offset, estimateElfSize d offset⟩ else none
      | none => none
    else none
  else none

/-- The extract_libs_from_data scan loop: probe every 4 bytes while
offset < len - 100; after a hit the cursor jumps past the estimated size. -/
def extractLibsGo (d : List Nat) : Nat → Nat → List LibRecord
  | 0, _ => []
  | fuel + 1, offset =>
    if offset < d.length - 100 then
      match libCandidate d offset with
      | some r => r :: extractLibsGo d fuel (offset + r.size)
      | none => extractLibsGo d fuel (offset + 4)
    else []

/-- AllwinnerImageExtractor.extract_libs_from_data, restricted to the records
it emits. -/
def extractLibsFromData (d : List Nat) : List LibRecord :=
  extractLibsGo d (d.length + 1) 0

/-- The end-of-config scan of the full extract_fex_configs: advance while
counting consecutive null bytes, stopping when the count exceeds 10, at the
position of the eleventh consecutive null. -/
def fexEndGo (d : List Nat) (pos : Nat) : Nat → Nat → Nat → Nat
  | 0, e, _ => e
  | fuel + 1, e, nullCount =>
    if e < d.length ∧ e - pos < 100000 then
      if byteAt d e = 0 then
        if 10 < nullCount + 1 then e else fexEndGo d pos fuel (e + 1) (nullCount + 1)
      else fexEndGo d pos fuel (e + 1) 0
    else e

def fexEnd (d : List Nat) (pos : Nat) : Nat := fexEndGo d pos (d.length + 1) pos 0

/-- A config block written by the full extract_fex_configs: start offset, stop
position of the end scan, and the emitted bytes with all nulls stripped. -/
structure FexBlock where
  offset : Nat
  stop : Nat
  out : List Nat
deriving Repr, DecidableEq

/-- The per-match emission decision of the full extract_fex_configs: keep only
candidates whose span exceeds 500 bytes, stripping every null byte. -/
def fexCandidate (d : List Nat) (pos : Nat) : Option FexBlock :=
  if pos + 500 < fexEnd d pos then
    some ⟨pos, fexEnd d pos, (pySlice d pos (fexEnd d pos)).filter (fun b => b != 0)⟩
  else none

/-- The per-marker while-loop of the full extract_fex_configs, threading the
set of already seen start offsets. -/
def fexLoopGo (d marker : List Nat) : Nat → Nat → List Nat → List Nat × List FexBlock
  | 0, _, found => (found, [])
  | fuel + 1, offset, found =>
    match findFrom d marker offset with
    | none => (found, [])
    | some pos =>
      if pos ∈ found then fexLoopGo d marker fuel (pos + 1) found
      else
        let e := fexEnd d pos
        let res := fexLoopGo d marker fuel e (found ++ [pos])
        match fexCandidate d pos with
        | some c => (res.1, c :: res.2)
        | none => res

/-- AllwinnerImageExtractor.extract_fex_configs: the three markers run in
order and share one seen-offset set, threaded from each loop into the next;
the emitted blocks are concatenated in marker order. -/
def extractFexConfigs (d : List Nat) : List FexBlock :=
  (fexLoopGo d productMarker (d.length + 2) 0 []).2 ++
    (fexLoopGo d platformMarker (d.length + 2) 0
      (fexLoopGo d productMarker (d.length + 2) 0 []).1).2 ++
    (fexLoopGo d targetMarker (d.length + 2) 0
      (fexLoopGo d platformMarker (d.length + 2) 0
        (fexLoopGo d productMarker (d.length + 2) 0 []).1).1).2

/-- AllwinnerImageExtractor.extract_build_prop: find the marker, scan to the
first quadruple-null within a 20000-byte window, and replace every null byte
of the block by a newline. -/
def extractBuildProp (d : List Nat) : Option (List Nat) :=
  match findFrom d propMarker 0 with
  | none => none
  | some s => some ((pySlice d s (AW.propEnd d [0, 0, 0, 0] 20000 s)).map nullToNl)

/-- The operational stepping of the find_all_partitions while-loop as a
relation: from a cursor position, either the loop guard fails and nothing more
is reported, or the branch selected by the elif chain contributes its record
and the cursor advances by the stride. -/
inductive ScanStep (d : List Nat) : Nat → List Part → Prop where
  | halt : ∀ offset, ¬ offset < d.length - 16 → ScanStep d offset []
  | boot : ∀ offset rest, offset < d.length - 16 →
      pySlice d offset (offset + 8) = androidMagic →
      ScanStep d (offset + 512) rest →
      ScanStep d offset (⟨"boot.img", offset, getBootImgSize d offset⟩ :: rest)
  | sparse : ∀ offset rest, offset < d.length - 16 →
      pySlice d offset (offset + 8) ≠ androidMagic →
      pySlice d offset (offset + 4) = sparseMagic →
      ScanStep d (offset + 512) rest →
      ScanStep d offset (⟨"sparse", offset, getSparseSize d offset⟩ :: rest)
  | gzip : ∀ offset rest, offset < d.length - 16 →
      pySlice d offset (offset + 8) ≠ androidMagic →
      pySlice d offset (offset + 4) ≠ sparseMagic →
      pySlice d offset (offset + 2) = gzipMagic →
      ScanStep d (offset + 512) rest →
      ScanStep d offset (⟨"gzip", offset, 0⟩ :: rest)
  | skip : ∀ offset rest, offset < d.length - 16 →
      pySlice d offset (offset + 8) ≠ androidMagic →
      pySlice d offset (offset + 4) ≠ sparseMagic →
      pySlice d offset (offset + 2) ≠ gzipMagic →
      ScanStep d (offset + 512) rest →
      ScanStep d offset rest

/-- The operational stepping of the extract_libs_from_data while-loop as a
relation: a hit advances the cursor by the estimated size, a miss by the
4-byte stride. -/
inductive LibStep (d : List Nat) : Nat → List LibRecord → Prop where
  | halt : ∀ offset, ¬ offset < d.length - 100 → LibStep d offset []
  | hit : ∀ offset r rest, offset < d.length - 100 →
      libCandidate d offset = some r →
      LibStep d (offset + r.size) rest →
      LibStep d offset (r :: rest)
  | miss : ∀ offset rest, offset < d.length - 100 →
      libCandidate d offset = none →
      LibStep d (offset + 4) rest →
      LibStep d offset rest

end Full

/-! Helper lemmas about the byte primitives and the find scan. -/

theorem prefix_slice (d pat : List Nat) (s : Nat) :
    pat.isPrefixOf (d.drop s) = true ↔ pySlice d s (s + pat.length) = pat := by
  have h : s + pat.length - s = pat.length := by omega
  rw [List.isPrefixOf_iff_prefix, List.prefix_iff_eq_take, pySlice, h]
  exact eq_comm

theorem findFromGo_char (d pat : List Nat) :
    ∀ fuel i s, findFromGo d pat fuel i = some s →
      i ≤ s ∧ pat.isPrefixOf (d.drop s) = true ∧
      ∀ j, i ≤ j → j < s → pat.isPrefixOf (d.drop j) = false := by
  intro fuel
  induction fuel with
  | zero => intro i s h; simp [findFromGo] at h
  | succ f ih =>
    intro i s h
    unfold findFromGo at h
    by_cases hp : pat.isPrefixOf (d.drop i) = true
    · rw [if_pos hp] at h
      obtain rfl : i = s := by simpa using h
      exact ⟨le_refl _, hp, fun j h1 h2 => absurd (lt_of_lt_of_le h2 h1) (by omega)⟩
    · rw [if_neg hp] at h
      by_cases hl : i < d.length
      · rw [if_pos hl] at h
        obtain ⟨h1, h2, h3⟩ := ih (i + 1) s h
        refine ⟨by omega, h2, fun j hj1 hj2 => ?_⟩
        rcases Nat.eq_or_lt_of_le hj1 with rfl | hj3
        · exact Bool.not_eq_true _ ▸ (by simpa using hp)
        · exact h3 j hj3 hj2
      · rw [if_neg hl] at h; exact absurd h (by simp)

theorem findFrom_char (d pat : List Nat) (start s : Nat)
    (h : findFrom d pat start = some s) :
    start ≤ s ∧ pySlice d s (s + pat.length) = pat ∧
      ∀ j, start ≤ j → j < s → pySlice d j (j + pat.length) ≠ pat := by
  obtain ⟨h1, h2, h3⟩ := findFromGo_char d pat (d.length + 1) start s h
  refine ⟨h1, (prefix_slice d pat s).1 h2, fun j hj1 hj2 hj3 => ?_⟩
  have h4 := h3 j hj1 hj2
  have h5 : pat.isPrefixOf (d.drop j) = true := (prefix_slice d pat j).2 hj3
  rw [h4] at h5
  exact absurd h5 (by simp)

/-! Helper lemmas about the extent estimators of the full variant. -/

theorem getBootImgSize_le (d : List Nat) (off : Nat) :
    Full.getBootImgSize d off ≤ 64 * 1024 * 1024 := by
  unfold Full.getBootImgSize
  split
  · exact Nat.min_le_right _ _
  · norm_num

theorem getBootImgSize_eq (d : List Nat) (off k r s pg : Nat) (h : off + 40 ≤ d.length)
    (hk : u32 d (off + 8) = k) (hr : u32 d (off + 16) = r) (hs : u32 d (off + 24) = s)
    (hpg : u32 d (off + 36) = pg) :
    Full.getBootImgSize d off =
      min ((if pg = 0 then 2048 else pg) + alignUp k (if pg = 0 then 2048 else pg) +
        alignUp r (if pg = 0 then 2048 else pg) + alignUp s (if pg = 0 then 2048 else pg))
        (64 * 1024 * 1024) := by
  subst hk hr hs hpg
  unfold Full.getBootImgSize r32
  rw [if_pos (by omega : off + 8 + 4 ≤ d.length), if_pos (by omega : off + 16 + 4 ≤ d.length),
    if_pos (by omega : off + 24 + 4 ≤ d.length), if_pos (by omega : off + 36 + 4 ≤ d.length)]

theorem getBootImgSize_default (d : List Nat) (off : Nat) (h : d.length < off + 40) :
    Full.getBootImgSize d off = 16 * 1024 * 1024 := by
  have h4 : r32 d (off + 36) = none := by simp only [r32, if_neg (by omega : ¬ off + 36 + 4 ≤ d.length)]
  rcases h1 : r32 d (off + 8) with _ | k <;> rcases h2 : r32 d (off + 16) with _ | r <;>
    rcases h3 : r32 d (off + 24) with _ | s <;>
      simp [Full.getBootImgSize, h1, h2, h3, h4]

theorem getSparseSize_le (d : List Nat) (off : Nat) :
    Full.getSparseSize d off ≤ 1024 * 1024 * 1024 := by
  unfold Full.getSparseSize
  split
  · exact Nat.min_le_right _ _
  · norm_num

theorem getSparseSize_eq (d : List Nat) (off b c : Nat) (h : off + 20 ≤ d.length)
    (hb : u32 d (off + 12) = b) (hc : u32 d (off + 16) = c) :
    Full.getSparseSize d off = min (c * b) (1024 * 1024 * 1024) := by
  subst hb hc
  unfold Full.getSparseSize r32
  rw [if_pos (by omega : off + 16 + 4 ≤ d.length), if_pos (by omega : off + 12 + 4 ≤ d.length)]

theorem getSparseSize_default (d : List Nat) (off : Nat) (h : d.length < off + 20) :
    Full.getSparseSize d off = 512 * 1024 * 1024 := by
  have h1 : r32 d (off + 16) = none := by
    simp only [r32, if_neg (by omega : ¬ off + 16 + 4 ≤ d.length)]
  simp [Full.getSparseSize, h1]

theorem elfSanity_bounds (s : Nat) :
    1000 ≤ Full.elfSanity s ∧ Full.elfSanity s ≤ 50 * 1024 * 1024 := by
  unfold Full.elfSanity
  split
  · omega
  · rename_i h; push_neg at h; omega

theorem estimateElfSize_bounds (d : List Nat) (off : Nat) :
    1000 ≤ Full.estimateElfSize d off ∧ Full.estimateElfSize d off ≤ 50 * 1024 * 1024 := by
  unfold Full.estimateElfSize
  split
  · split
    · split
      · exact elfSanity_bounds _
      · omega
    · split
      · exact elfSanity_bounds _
      · omega
  · omega

theorem estimateElfSize_eq64 (d : List Nat) (off : Nat) (h : off + 62 ≤ d.length)
    (hc : byteAt d (off + 4) = 2) :
    Full.estimateElfSize d off =
      Full.elfSanity (u64 d (off + 40) + u16 d (off + 58) * u16 d (off + 60)) := by
  unfold Full.estimateElfSize r64 r16
  rw [if_pos (by omega : off + 4 < d.length), if_pos hc,
    if_pos (by omega : off + 40 + 8 ≤ d.length), if_pos (by omega : off + 58 + 2 ≤ d.length),
    if_pos (by omega : off + 60 + 2 ≤ d.length)]

theorem estimateElfSize_eq32 (d : List Nat) (off : Nat) (h : off + 50 ≤ d.length)
    (hc : byteAt d (off + 4) ≠ 2) :
    Full.estimateElfSize d off =
      Full.elfSanity (u32 d (off + 32) + u16 d (off + 46) * u16 d (off + 48)) := by
  unfold Full.estimateElfSize r32 r16
  rw [if_pos (by omega : off + 4 < d.length), if_neg hc,
    if_pos (by omega : off + 32 + 4 ≤ d.length), if_pos (by omega : off + 46 + 2 ≤ d.length),
    if_pos (by omega : off + 48 + 2 ≤ d.length)]

theorem estimateElfSize_default_short (d : List Nat) (off : Nat) (h : d.length ≤ off + 4) :
    Full.estimateElfSize d off = 2 * 1024 * 1024 := by
  unfold Full.estimateElfSize
  rw [if_neg (by omega : ¬ off + 4 < d.length)]

theorem estimateElfSize_default64 (d : List Nat) (off : Nat) (h1 : off + 4 < d.length)
    (hc : byteAt d (off + 4) = 2) (h2 : d.length < off + 62) :
    Full.estimateElfSize d off = 2 * 1024 * 1024 := by
  unfold Full.estimateElfSize
  rw [if_pos h1, if_pos hc]
  rcases ho : r64 d (off + 40) with _ | a <;> rcases he : r16 d (off + 58) with _ | b <;>
    rcases hn : r16 d (off + 60) with _ | c <;> (simp_all [r64, r16]; try omega)

theorem estimateElfSize_default32 (d : List Nat) (off : Nat) (h1 : off + 4 < d.length)
    (hc : byteAt d (off + 4) ≠ 2) (h2 : d.length < off + 50) :
    Full.estimateElfSize d off = 2 * 1024 * 1024 := by
  unfold Full.estimateElfSize
  rw [if_pos h1, if_neg hc]
  rcases ho : r32 d (off + 32) with _ | a <;> rcases he : r16 d (off + 46) with _ | b <;>
    rcases hn : r16 d (off + 48) with _ | c <;> (simp_all [r32, r16]; try omega)

/-! Helper lemmas about the scan loops of the full variant. -/

theorem sparse_not_android (d : List Nat) (X : Nat) (h : pySlice d X (X + 4) = sparseMagic) :
    pySlice d X (X + 8) ≠ androidMagic := by
  intro hA
  have h1 : byteAt d X = 58 := pySlice_head d X (X + 4) 58 [255, 38, 237] (by simpa [sparseMagic] using h)
  have h2 : byteAt d X = 65 := pySlice_head d X (X + 8) 65 [78, 68, 82, 79, 73, 68, 33] (by simpa [androidMagic] using hA)
  omega

theorem partAt_sound (d : List Nat) (off : Nat) (p : Full.Part) (h : p ∈ Full.partAt d off) :
    p.offset = off ∧
      ((p.type = "boot.img" ∧ p.size = Full.getBootImgSize d off) ∨
        (p.type = "sparse" ∧ p.size = Full.getSparseSize d off) ∨
        (p.type = "gzip" ∧ p.size = 0)) := by
  unfold Full.partAt at h
  split at h
  · simp only [List.mem_singleton] at h; subst h; exact ⟨rfl, Or.inl ⟨rfl, rfl⟩⟩
  · split at h
    · simp only [List.mem_singleton] at h; subst h; exact ⟨rfl, Or.inr (Or.inl ⟨rfl, rfl⟩)⟩
    · split at h
      · simp only [List.mem_singleton] at h; subst h; exact ⟨rfl, Or.inr (Or.inr ⟨rfl, rfl⟩)⟩
      · simp at h

theorem findAllGo_sound (d : List Nat) :
    ∀ fuel offset p, p ∈ Full.findAllGo d fuel offset → ∃ o, p ∈ Full.partAt d o := by
  intro fuel
  induction fuel with
  | zero => intro offset p h; simp [Full.findAllGo] at h
  | succ f ih =>
    intro offset p h
    unfold Full.findAllGo at h
    split at h
    · rcases List.mem_append.1 h with h1 | h1
      · exact ⟨offset, h1⟩
      · exact ih (offset + 512) p h1
    · simp at h

theorem findAllGo_mem_boot (d : List Nat) (X : Nat)
    (hX : X + 40 ≤ d.length) (hmag : pySlice d X (X + 8) = androidMagic) :
    ∀ fuel offset, offset ≤ X → (X - offset) % 512 = 0 →
      d.length - 16 ≤ offset + 512 * fuel →
      (⟨"boot.img", X, Full.getBootImgSize d X⟩ : Full.Part) ∈ Full.findAllGo d fuel offset := by
  intro fuel
  induction fuel with
  | zero => intro offset h1 h2 h3; omega
  | succ f ih =>
    intro offset h1 h2 h3
    unfold Full.findAllGo
    rcases Nat.eq_or_lt_of_le h1 with rfl | hlt
    · rw [if_pos (by omega)]
      apply List.mem_append.2 (Or.inl _)
      unfold Full.partAt
      rw [if_pos hmag]
      simp
    · rw [if_pos (by omega)]
      exact List.mem_append.2 (Or.inr (ih (offset + 512) (by omega) (by omega) (by omega)))

theorem findAllGo_mem_sparse (d : List Nat) (X : Nat)
    (hX : X + 20 ≤ d.length) (hmag : pySlice d X (X + 4) = sparseMagic) :
    ∀ fuel offset, offset ≤ X → (X - offset) % 512 = 0 →
      d.length - 16 ≤ offset + 512 * fuel →
      (⟨"sparse", X, Full.getSparseSize d X⟩ : Full.Part) ∈ Full.findAllGo d fuel offset := by
  intro fuel
  induction fuel with
  | zero => intro offset h1 h2 h3; omega
  | succ f ih =>
    intro offset h1 h2 h3
    unfold Full.findAllGo
    rcases Nat.eq_or_lt_of_le h1 with rfl | hlt
    · rw [if_pos (by omega)]
      apply List.mem_append.2 (Or.inl _)
      unfold Full.partAt
      rw [if_neg (sparse_not_android d offset hmag), if_pos hmag]
      simp
    · rw [if_pos (by omega)]
      exact List.mem_append.2 (Or.inr (ih (offset + 512) (by omega) (by omega) (by omega)))

theorem libCandidate_char (d : List Nat) (off : Nat) (r : Full.LibRecord)
    (h : Full.libCandidate d off = some r) :
    pySlice d off (off + 4) = elfMagic ∧ u16 d (off + 16) = 3 ∧
      Full.findLibName d off = some r.name ∧ Full.nameFilter r.name = true ∧
      r.offset = off ∧ r.size = Full.estimateElfSize d off := by
  by_cases h1 : pySlice d off (off + 4) = elfMagic
  · by_cases h2 : u16 d (off + 16) = 3
    · rcases hn : Full.findLibName d off with _ | nm
      · rw [show Full.libCandidate d off = none by simp [Full.libCandidate, h1, h2, hn]] at h
        exact absurd h (by simp)
      · by_cases h3 : Full.nameFilter nm = true
        · rw [show Full.libCandidate d off = some ⟨nm, off, Full.estimateElfSize d off⟩ by
            simp [Full.libCandidate, h1, h2, hn, h3]] at h
          obtain rfl := Option.some.inj h
          exact ⟨h1, h2, by simp [hn], by simpa using h3, rfl, rfl⟩
        · rw [show Full.libCandidate d off = none by
            simp [Full.libCandidate, h1, h2, hn, h3]] at h
          exact absurd h (by simp)
    · rw [show Full.libCandidate d off = none by simp [Full.libCandidate, h1, h2]] at h
      exact absurd h (by simp)
  · rw [show Full.libCandidate d off = none by simp [Full.libCandidate, h1]] at h
    exact absurd h (by simp)

theorem extractLibsGo_sound (d : List Nat) :
    ∀ fuel offset r, r ∈ Full.extractLibsGo d fuel offset →
      Full.libCandidate d r.offset = some r := by
  intro fuel
  induction fuel with
  | zero => intro offset r h; simp [Full.extractLibsGo] at h
  | succ f ih =>
    intro offset r h
    unfold Full.extractLibsGo at h
    split at h
    · rcases hc : Full.libCandidate d offset with _ | r0
      · rw [hc] at h; exact ih (offset + 4) r h
      · rw [hc] at h
        rcases List.mem_cons.1 h with rfl | h1
        · have := (libCandidate_char d offset r hc).2.2.2.2.1
          rwa [this]
        · exact ih (offset + r0.size) r h1
    · simp at h

theorem scanStep_total (d : List Nat) :
    ∀ fuel offset, d.length - 16 ≤ offset + 512 * fuel →
      Full.ScanStep d offset (Full.findAllGo d fuel offset) := by
  intro fuel
  induction fuel with
  | zero => intro offset h; exact Full.ScanStep.halt offset (by simp [Full.findAllGo]; omega)
  | succ f ih =>
    intro offset h
    unfold Full.findAllGo
    by_cases hg : offset < d.length - 16
    · rw [if_pos hg]
      have hrest := ih (offset + 512) (by omega)
      unfold Full.partAt
      by_cases h1 : pySlice d offset (offset + 8) = androidMagic
      · rw [if_pos h1]; exact Full.ScanStep.boot offset _ hg h1 hrest
      · rw [if_neg h1]
        by_cases h2 : pySlice d offset (offset + 4) = sparseMagic
        · rw [if_pos h2]; exact Full.ScanStep.sparse offset _ hg h1 h2 hrest
        · rw [if_neg h2]
          by_cases h3 : pySlice d offset (offset + 2) = gzipMagic
          · rw [if_pos h3]; exact Full.ScanStep.gzip offset _ hg h1 h2 h3 hrest
          · rw [if_neg h3]; exact Full.ScanStep.skip offset _ hg h1 h2 h3 hrest
    · rw [if_neg hg]; exact Full.ScanStep.halt offset hg

theorem scanStep_det (d : List Nat) :
    ∀ offset r1 r2, Full.ScanStep d offset r1 → Full.ScanStep d offset r2 → r1 = r2 := by
  intro offset r1 r2 h1 h2
  induction h1 generalizing r2 with
  | halt o hg => cases h2 with
    | halt _ _ => rfl
    | boot _ _ hg2 _ _ => exact absurd hg2 hg
    | sparse _ _ hg2 _ _ _ => exact absurd hg2 hg
    | gzip _ _ hg2 _ _ _ _ => exact absurd hg2 hg
    | skip _ _ hg2 _ _ _ _ => exact absurd hg2 hg
  | boot o rest hg hm _ ih => cases h2 with
    | halt _ hg2 => exact absurd hg hg2
    | boot _ rest2 _ _ hs2 => rw [ih rest2 hs2]
    | sparse _ _ _ hm2 _ _ => exact absurd hm hm2
    | gzip _ _ _ hm2 _ _ _ => exact absurd hm hm2
    | skip _ _ _ hm2 _ _ _ => exact absurd hm hm2
  | sparse o rest hg hnm hm _ ih => cases h2 with
    | halt _ hg2 => exact absurd hg hg2
    | boot _ _ _ hm2 _ => exact absurd hm2 hnm
    | sparse _ rest2 _ _ _ hs2 => rw [ih rest2 hs2]
    | gzip _ _ _ _ hm2 _ _ => exact absurd hm hm2
    | skip _ _ _ _ hm2 _ _ => exact absurd hm hm2
  | gzip o rest hg hnm hns hm _ ih => cases h2 with
    | halt _ hg2 => exact absurd hg hg2
    | boot _ _ _ hm2 _ => exact absurd hm2 hnm
    | sparse _ _ _ _ hm2 _ => exact absurd hm2 hns
    | gzip _ rest2 _ _ _ _ hs2 => rw [ih rest2 hs2]
    | skip _ _ _ _ _ hm2 _ => exact absurd hm hm2
  | skip o rest hg hnm hns hng _ ih => cases h2 with
    | halt _ hg2 => exact absurd hg hg2
    | boot _ _ _ hm2 _ => exact absurd hm2 hnm
    | sparse _ _ _ _ hm2 _ => exact absurd hm2 hns
    | gzip _ _ _ _ _ hm2 _ => exact absurd hm2 hng
    | skip _ _ _ _ _ _ hs2 => exact ih _ hs2

theorem libStep_total (d : List Nat) :
    ∀ fuel offset, d.length - 100 ≤ offset + 4 * fuel →
      Full.LibStep d offset (Full.extractLibsGo d fuel offset) := by
  intro fuel
  induction fuel with
  | zero => intro offset h; exact Full.LibStep.halt offset (by simp [Full.extractLibsGo]; omega)
  | succ f ih =>
    intro offset h
    unfold Full.extractLibsGo
    by_cases hg : offset < d.length - 100
    · rw [if_pos hg]
      rcases hc : Full.libCandidate d offset with _ | r
      · exact Full.LibStep.miss offset _ hg hc (ih (offset + 4) (by omega))
      · have hsz : 1000 ≤ r.size := by
          have := (libCandidate_char d offset r hc).2.2.2.2.2
          rw [this]; exact (estimateElfSize_bounds d offset).1
        exact Full.LibStep.hit offset r _ hg hc (ih (offset + r.size) (by omega))
    · rw [if_neg hg]; exact Full.LibStep.halt offset hg

theorem libStep_det (d : List Nat) :
    ∀ offset r1 r2, Full.LibStep d offset r1 → Full.LibStep d offset r2 → r1 = r2 := by
  intro offset r1 r2 h1 h2
  induction h1 generalizing r2 with
  | halt o hg => cases h2 with
    | halt _ _ => rfl
    | hit _ _ _ hg2 _ _ => exact absurd hg2 hg
    | miss _ _ hg2 _ _ => exact absurd hg2 hg
  | hit o r rest hg hc _ ih => cases h2 with
    | halt _ hg2 => exact absurd hg hg2
    | hit _ r2 rest2 _ hc2 hs2 =>
      obtain rfl : r = r2 := by rw [hc] at hc2; exact Option.some.inj hc2
      rw [ih rest2 hs2]
    | miss _ _ _ hc2 _ => rw [hc] at hc2; exact absurd hc2 (by simp)
  | miss o rest hg hc _ ih => cases h2 with
    | halt _ hg2 => exact absurd hg hg2
    | hit _ r2 rest2 _ hc2 _ => rw [hc] at hc2; exact absurd hc2 (by simp)
    | miss _ _ _ _ hs2 => exact ih _ hs2

/-! Helper lemmas about the scan loop of the simplified variant. -/

theorem bootAt_eq (d : List Nat) (off : Nat) (hmag : pySlice d off (off + 8) = androidMagic)
    (hlen : off + 40 ≤ d.length) :
    AW.bootAt d off = .ok [⟨"boot.img", off,
      min ((if u32 d (off + 36) = 0 then 2048 else u32 d (off + 36)) +
        alignUp (u32 d (off + 8)) (if u32 d (off + 36) = 0 then 2048 else u32 d (off + 36)) +
        alignUp (u32 d (off + 16)) (if u32 d (off + 36) = 0 then 2048 else u32 d (off + 36)))
        (64 * 1024 * 1024), "boot.img"⟩] := by
  unfold AW.bootAt r32
  rw [if_pos hmag, if_pos (by omega : off + 8 + 4 ≤ d.length),
    if_pos (by omega : off + 16 + 4 ≤ d.length), if_pos (by omega : off + 36 + 4 ≤ d.length)]

theorem bootAt_short (d : List Nat) (off : Nat) (hmag : pySlice d off (off + 8) = androidMagic)
    (h : d.length < off + 40) : AW.bootAt d off = .error () := by
  have h3 : r32 d (off + 36) = none := by
    simp only [r32, if_neg (by omega : ¬ off + 36 + 4 ≤ d.length)]
  rcases h1 : r32 d (off + 8) with _ | k <;> rcases h2 : r32 d (off + 16) with _ | r <;>
    simp [AW.bootAt, hmag, h1, h2, h3]

theorem bootAt_sound (d : List Nat) (off : Nat) :
    ∀ l, AW.bootAt d off = .ok l →
      ∀ p ∈ l, p.type = "boot.img" ∧ p.size ≤ 64 * 1024 * 1024 := by
  intro l h p hp
  by_cases hm : pySlice d off (off + 8) = androidMagic
  · by_cases hl : off + 40 ≤ d.length
    · rw [bootAt_eq d off hm hl] at h
      obtain rfl : _ = l := Except.ok.inj h
      simp only [List.mem_singleton] at hp
      subst hp
      exact ⟨rfl, Nat.min_le_right _ _⟩
    · rw [bootAt_short d off hm (by omega)] at h
      exact absurd h (by simp)
  · rw [show AW.bootAt d off = .ok [] by simp [AW.bootAt, hm]] at h
    obtain rfl : ([] : List AW.Partition) = l := Except.ok.inj h
    simp at hp

theorem sparseAt_sound (d : List Nat) (off : Nat) (p : AW.Partition)
    (hp : p ∈ AW.sparseAt d off) : p.type = "sparse" ∧ p.size = 0 := by
  unfold AW.sparseAt at hp
  split at hp
  · simp only [List.mem_singleton] at hp; subst hp; exact ⟨rfl, rfl⟩
  · simp at hp

theorem findPartitionsGo_sound (d : List Nat) :
    ∀ fuel offset parts, AW.findPartitionsGo d fuel offset = .ok parts →
      ∀ p ∈ parts, (p.type = "boot.img" → p.size ≤ 64 * 1024 * 1024) ∧
        (p.type = "sparse" → p.size = 0) := by
  intro fuel
  induction fuel with
  | zero =>
    intro offset parts h p hp
    have hpar : parts = [] := by simpa [AW.findPartitionsGo] using h
    subst hpar
    simp at hp
  | succ f ih =>
    intro offset parts h p hp
    unfold AW.findPartitionsGo at h
    split at h
    · rcases hb : AW.bootAt d offset with e | found
      · rw [hb] at h; exact absurd h (by simp)
      · rw [hb] at h
        rcases hr : AW.findPartitionsGo d f (offset + 512) with e | rest
        · rw [hr] at h; exact absurd h (by simp)
        · rw [hr] at h
          obtain rfl : found ++ AW.sparseAt d offset ++ rest = parts := by simpa using h
          have hp' : p ∈ found ∨ p ∈ AW.sparseAt d offset ∨ p ∈ rest := by
            simp only [List.mem_append] at hp; tauto
          rcases hp' with hp1 | hp1 | hp1
          · obtain ⟨ht, hs⟩ := bootAt_sound d offset found hb p hp1
            refine ⟨fun _ => hs, fun hc => ?_⟩
            rw [ht] at hc; exact absurd hc (by simp)
          · obtain ⟨ht, hs⟩ := sparseAt_sound d offset p hp1
            refine ⟨fun hc => ?_, fun _ => hs⟩
            rw [ht] at hc; exact absurd hc (by simp)
          · exact ih (offset + 512) rest hr p hp1
    · have hpar : parts = [] := by simpa using h
      subst hpar
      simp at hp

theorem findPartitionsGo_mem_boot (d : List Nat) (X : Nat)
    (hX : X + 40 ≤ d.length) (hmag : pySlice d X (X + 8) = androidMagic) :
    ∀ fuel offset parts, offset ≤ X → (X - offset) % 512 = 0 →
      d.length ≤ offset + 512 * fuel →
      AW.findPartitionsGo d fuel offset = .ok parts →
      (⟨"boot.img", X,
        min ((if u32 d (X + 36) = 0 then 2048 else u32 d (X + 36)) +
          alignUp (u32 d (X + 8)) (if u32 d (X + 36) = 0 then 2048 else u32 d (X + 36)) +
          alignUp (u32 d (X + 16)) (if u32 d (X + 36) = 0 then 2048 else u32 d (X + 36)))
          (64 * 1024 * 1024), "boot.img"⟩ : AW.Partition) ∈ parts := by
  intro fuel
  induction fuel with
  | zero => intro offset parts h1 h2 h3 h4; omega
  | succ f ih =>
    intro offset parts h1 h2 h3 h4
    unfold AW.findPartitionsGo at h4
    rw [if_pos (by omega : offset < d.length)] at h4
    rcases Nat.eq_or_lt_of_le h1 with rfl | hlt
    · rw [bootAt_eq d offset hmag hX] at h4
      rcases hr : AW.findPartitionsGo d f (offset + 512) with e | rest
      · rw [hr] at h4; exact absurd h4 (by simp)
      · rw [hr] at h4
        obtain rfl : _ = parts := by simpa using h4
        simp
    · rcases hb : AW.bootAt d offset with e | found
      · rw [hb] at h4; exact absurd h4 (by simp)
      · rw [hb] at h4
        rcases hr : AW.findPartitionsGo d f (offset + 512) with e | rest
        · rw [hr] at h4; exact absurd h4 (by simp)
        · rw [hr] at h4
          obtain rfl : _ = parts := by simpa using h4
          have hmem := ih (offset + 512) rest (by omega) (by omega) (by omega) hr
          simp only [List.mem_append]
          tauto

/-! Helper lemmas about the string extractor. -/

theorem extractStringsGo_printable (minLength : Nat) :
    ∀ t cur, (∀ b ∈ t, 32 ≤ b ∧ b < 127) → AW.extractStringsGo minLength cur t = [] := by
  intro t
  induction t with
  | nil => intro cur _; rfl
  | cons b rest ih =>
    intro cur h
    unfold AW.extractStringsGo
    rw [if_pos (h b (by simp))]
    exact ih _ (fun x hx => h x (by simp [hx]))

theorem extractStringsGo_append (minLength : Nat) (t : List Nat)
    (ht : ∀ b ∈ t, 32 ≤ b ∧ b < 127) :
    ∀ xs cur, AW.extractStringsGo minLength cur (xs ++ t) =
      AW.extractStringsGo minLength cur xs := by
  intro xs
  induction xs with
  | nil =>
    intro cur
    simp only [List.nil_append]
    rw [extractStringsGo_printable minLength t cur ht]
    rfl
  | cons b rest ih =>
    intro cur
    simp only [List.cons_append]
    unfold AW.extractStringsGo
    by_cases hb : 32 ≤ b ∧ b < 127
    · rw [if_pos hb, if_pos hb, ih]
    · rw [if_neg hb, if_neg hb, ih]

/-! Helper lemmas about the filler-run end scans and the build.prop end scan. -/

theorem pySlice_mem (d : List Nat) (a k : Nat) (h : a + k ≤ d.length) (b : Nat)
    (hb : b ∈ pySlice d a (a + k)) : ∃ i, i < k ∧ b = byteAt d (a + i) := by
  rw [pySlice_eq_map d a k h] at hb
  simp only [List.mem_map, List.mem_range] at hb
  obtain ⟨i, hi, rfl⟩ := hb
  exact ⟨i, hi, rfl⟩

theorem countP_range_lower (p : Nat → Bool) :
    ∀ m k, k ≤ m → (∀ i, i < k → p i = true) → k ≤ (List.range m).countP p := by
  intro m
  induction m with
  | zero => intro k hk _; simpa using hk
  | succ mm ih =>
    intro k hk hp
    rw [List.range_succ, List.countP_append]
    by_cases hkm : k ≤ mm
    · have := ih k hkm hp; omega
    · have hk1 : k = mm + 1 := by omega
      subst hk1
      have h1 := ih mm (le_refl _) (fun i hi => hp i (by omega))
      have h2 : List.countP p [mm] = 1 := by
        simp [List.countP_cons, hp mm (by omega)]
      omega

theorem fexEndGo_AW_reach (d : List Nat) (pos n : Nat)
    (hcap : n < 100000) (hlen : pos + n + 10 ≤ d.length)
    (hpr : ∀ i, i < n → 32 ≤ byteAt d (pos + i) ∧ byteAt d (pos + i) < 127)
    (hnull : ∀ i, i < 10 → byteAt d (pos + n + i) = 0) :
    ∀ fuel e, pos ≤ e → e ≤ pos + n → pos + n - e < fuel →
      AW.fexEndGo d pos fuel e = pos + n := by
  intro fuel
  induction fuel with
  | zero => intro e h1 h2 h3; omega
  | succ f ih =>
    intro e h1 h2 h3
    unfold AW.fexEndGo
    rcases Nat.eq_or_lt_of_le h2 with he | hlt
    · subst he
      rw [if_pos ⟨by omega, by omega⟩]
      have hslice : pySlice d (pos + n) (pos + n + 4) = [0, 0, 0, 0] := by
        rw [pySlice_eq_map d (pos + n) 4 (by omega)]
        simp only [show List.range 4 = [0, 1, 2, 3] from rfl, List.map_cons, List.map_nil]
        rw [hnull 0 (by omega), hnull 1 (by omega), hnull 2 (by omega), hnull 3 (by omega)]
      have hcount : 8 < AW.countFill d (pos + n) := by
        have h10 : (10 : Nat) ≤ min 16 (d.length - (pos + n)) := by omega
        have := countP_range_lower
          (fun i => byteAt d (pos + n + i) == 0 || byteAt d (pos + n + i) == 255)
          (min 16 (d.length - (pos + n))) 10 h10
          (fun i hi => by simp [hnull i hi])
        unfold AW.countFill
        omega
      rw [if_pos ⟨Or.inl hslice, hcount⟩]
    · rw [if_pos ⟨by omega, by omega⟩]
      have hb : 32 ≤ byteAt d e ∧ byteAt d e < 127 := by
        have := hpr (e - pos) (by omega)
        rwa [show pos + (e - pos) = e by omega] at this
      have hno : ¬ ((pySlice d e (e + 4) = [0, 0, 0, 0] ∨
          pySlice d e (e + 4) = [255, 255, 255, 255]) ∧ 8 < AW.countFill d e) := by
        rintro ⟨h4 | h4, -⟩
        · have := pySlice_head d e (e + 4) 0 [0, 0, 0] h4; omega
        · have := pySlice_head d e (e + 4) 255 [255, 255, 255] h4; omega
      rw [if_neg hno]
      exact ih (e + 1) (by omega) (by omega) (by omega)

theorem fexEndGo_Full_nulls (d : List Nat) (pos n : Nat)
    (hcap : n + 10 < 100000) (hlen : pos + n + 11 ≤ d.length)
    (hnull : ∀ i, i < 11 → byteAt d (pos + n + i) = 0) :
    ∀ fuel k, k ≤ 10 → 11 - k ≤ fuel →
      Full.fexEndGo d pos fuel (pos + n + k) k = pos + n + 10 := by
  intro fuel
  induction fuel with
  | zero => intro k h1 h2; omega
  | succ f ih =>
    intro k h1 h2
    unfold Full.fexEndGo
    rw [if_pos ⟨by omega, by omega⟩]
    rw [if_pos (hnull k (by omega))]
    rcases Nat.eq_or_lt_of_le h1 with rfl | hk
    · rw [if_pos (by omega : 10 < 10 + 1)]
    · rw [if_neg (by omega : ¬ 10 < k + 1)]
      have := ih (k + 1) (by omega) (by omega)
      rw [show pos + n + k + 1 = pos + n + (k + 1) by omega]
      exact this

theorem fexEndGo_Full_print (d : List Nat) (pos n : Nat)
    (hcap : n + 10 < 100000) (hlen : pos + n + 11 ≤ d.length)
    (hpr : ∀ i, i < n → byteAt d (pos + i) ≠ 0)
    (hnull : ∀ i, i < 11 → byteAt d (pos + n + i) = 0) :
    ∀ fuel j, j ≤ n → n + 11 - j ≤ fuel →
      Full.fexEndGo d pos fuel (pos + j) 0 = pos + n + 10 := by
  intro fuel
  induction fuel with
  | zero => intro j h1 h2; omega
  | succ f ih =>
    intro j h1 h2
    rcases Nat.eq_or_lt_of_le h1 with rfl | hj
    · have := fexEndGo_Full_nulls d pos j hcap hlen hnull (f + 1) 0 (by omega) (by omega)
      simpa using this
    · unfold Full.fexEndGo
      rw [if_pos ⟨by omega, by omega⟩, if_neg (hpr j hj)]
      have := ih (j + 1) (by omega) (by omega)
      rw [show pos + j + 1 = pos + (j + 1) by omega]
      exact this

theorem propEndGo_char (d stopPat : List Nat) (cap start : Nat) :
    ∀ fuel e, d.length ≤ e + fuel →
      e ≤ AW.propEndGo d stopPat cap start fuel e ∧
      (∀ j, e ≤ j → j < AW.propEndGo d stopPat cap start fuel e →
        pySlice d j (j + stopPat.length) ≠ stopPat) ∧
      (pySlice d (AW.propEndGo d stopPat cap start fuel e)
          (AW.propEndGo d stopPat cap start fuel e + stopPat.length) = stopPat ∨
        d.length ≤ AW.propEndGo d stopPat cap start fuel e ∨
        cap ≤ AW.propEndGo d stopPat cap start fuel e - start) := by
  intro fuel
  induction fuel with
  | zero =>
    intro e h
    simp only [AW.propEndGo]
    exact ⟨le_refl _, fun j h1 h2 => by omega, Or.inr (Or.inl (by omega))⟩
  | succ f ih =>
    intro e h
    unfold AW.propEndGo
    by_cases hg : e < d.length ∧ e - start < cap
    · rw [if_pos hg]
      by_cases hs : pySlice d e (e + stopPat.length) = stopPat
      · rw [if_pos hs]
        exact ⟨le_refl _, fun j h1 h2 => by omega, Or.inl hs⟩
      · rw [if_neg hs]
        obtain ⟨h1, h2, h3⟩ := ih (e + 1) (by omega)
        refine ⟨by omega, fun j hj1 hj2 => ?_, h3⟩
        rcases Nat.eq_or_lt_of_le hj1 with rfl | hj
        · exact hs
        · exact h2 j hj hj2
    · rw [if_neg hg]
      refine ⟨le_refl _, fun j h1 h2 => by omega, ?_⟩
      rcases not_and_or.mp hg with h4 | h4
      · exact Or.inr (Or.inl (by omega))
      · exact Or.inr (Or.inr (by omega))

theorem byteAt_append_lt (l1 l2 : List Nat) (i : Nat) (h : i < l1.length) :
    byteAt (l1 ++ l2) i = byteAt l1 i := by
  simp only [byteAt, List.getD_eq_getElem?_getD]
  rw [List.getElem?_append, if_pos h]

theorem byteAt_append_ge (l1 l2 : List Nat) (i : Nat) (h : l1.length ≤ i) :
    byteAt (l1 ++ l2) i = byteAt l2 (i - l1.length) := by
  simp only [byteAt, List.getD_eq_getElem?_getD]
  rw [List.getElem?_append, if_neg (by omega)]

theorem byteAt_replicate (k v i : Nat) : byteAt (List.replicate k v) i =
    if i < k then v else 0 := by
  by_cases h : i < k
  · rw [if_pos h]
    simp [byteAt, List.getD_eq_getElem?_getD, List.getElem?_replicate, h]
  · rw [if_neg h]
    have : (List.replicate k v).length ≤ i := by simp; omega
    simp [byteAt, List.getD_eq_getElem?_getD, List.getElem?_eq_none this]

theorem findFrom_none_of (d pat : List Nat) (start : Nat)
    (h : ∀ s, pySlice d s (s + pat.length) ≠ pat) : findFrom d pat start = none := by
  rcases h2 : findFrom d pat start with _ | s
  · rfl
  · exact absurd (findFrom_char d pat start s h2).2.1 (h s)

theorem fexEndGo_Full_step (d : List Nat) (pos f e nc : Nat) :
    Full.fexEndGo d pos (f + 1) e nc =
      if e < d.length ∧ e - pos < 100000 then
        if byteAt d e = 0 then
          if 10 < nc + 1 then e else Full.fexEndGo d pos f (e + 1) (nc + 1)
        else Full.fexEndGo d pos f (e + 1) 0
      else e := rfl

theorem fexEndGo_Full_stop (d : List Nat) (pos : Nat) (fuel e nc : Nat)
    (h : ¬ (e < d.length ∧ e - pos < 100000)) :
    Full.fexEndGo d pos fuel e nc = e := by
  cases fuel with
  | zero => rfl
  | succ f => rw [fexEndGo_Full_step, if_neg h]

theorem fexEndGo_Full_nonzero_stretch (d : List Nat) (pos : Nat) :
    ∀ m fuel e nc, (∀ i, i < m → byteAt d (e + i) ≠ 0) → e + m ≤ d.length →
      e + m ≤ pos + 100000 → m ≤ fuel →
      Full.fexEndGo d pos fuel e nc =
        Full.fexEndGo d pos (fuel - m) (e + m) (if m = 0 then nc else 0) := by
  intro m
  induction m with
  | zero => intro fuel e nc _ _ _ _; simp
  | succ mm ih =>
    intro fuel e nc hnz hlen hcap hf
    rcases fuel with _ | f
    · omega
    · rw [fexEndGo_Full_step, if_pos ⟨by omega, by omega⟩,
        if_neg (by simpa using hnz 0 (by omega))]
      have hrec := ih f (e + 1) 0 (fun i hi => by
        have := hnz (i + 1) (by omega)
        rwa [show e + (i + 1) = e + 1 + i by omega] at this) (by omega) (by omega) (by omega)
      rw [hrec]
      have h1 : e + 1 + mm = e + (mm + 1) := by omega
      have h2 : f - mm = f + 1 - (mm + 1) := by omega
      have h3 : (if mm = 0 then (0 : Nat) else 0) = (if mm + 1 = 0 then nc else 0) := by simp
      rw [h1, h2, h3]

theorem fexEndGo_Full_zero_stretch (d : List Nat) (pos : Nat) :
    ∀ m fuel e nc, (∀ i, i < m → byteAt d (e + i) = 0) → nc + m ≤ 10 →
      e + m ≤ d.length → e + m ≤ pos + 100000 → m ≤ fuel →
      Full.fexEndGo d pos fuel e nc =
        Full.fexEndGo d pos (fuel - m) (e + m) (nc + m) := by
  intro m
  induction m with
  | zero => intro fuel e nc _ _ _ _ _; simp
  | succ mm ih =>
    intro fuel e nc hz hnc hlen hcap hf
    rcases fuel with _ | f
    · omega
    · rw [fexEndGo_Full_step, if_pos ⟨by omega, by omega⟩,
        if_pos (by simpa using hz 0 (by omega)), if_neg (by omega : ¬ 10 < nc + 1)]
      have hrec := ih f (e + 1) (nc + 1) (fun i hi => by
        have := hz (i + 1) (by omega)
        rwa [show e + (i + 1) = e + 1 + i by omega] at this) (by omega) (by omega)
        (by omega) (by omega)
      rw [hrec]
      have h1 : e + 1 + mm = e + (mm + 1) := by omega
      have h2 : f - mm = f + 1 - (mm + 1) := by omega
      have h3 : nc + 1 + mm = nc + (mm + 1) := by omega
      rw [h1, h2, h3]

theorem nullToNl_ne_zero (a : Nat) : nullToNl a ≠ 0 := by
  unfold nullToNl
  split
  · omega
  · assumption

theorem fexLoopGo_Full_step (d marker : List Nat) (fuel offset : Nat) (found : List Nat) :
    Full.fexLoopGo d marker (fuel + 1) offset found =
      match findFrom d marker offset with
      | none => (found, [])
      | some pos =>
        if pos ∈ found then Full.fexLoopGo d marker fuel (pos + 1) found
        else
          match Full.fexCandidate d pos with
          | some c =>
            ((Full.fexLoopGo d marker fuel (Full.fexEnd d pos) (found ++ [pos])).1,
              c :: (Full.fexLoopGo d marker fuel (Full.fexEnd d pos) (found ++ [pos])).2)
          | none => Full.fexLoopGo d marker fuel (Full.fexEnd d pos) (found ++ [pos]) :=
  rfl

theorem productMarker_printable :
    ∀ j, j < 9 → 32 ≤ byteAt productMarker j ∧ byteAt productMarker j < 127 := by
  decide

theorem productMarker_ne_91 : ∀ j, j < 9 → byteAt productMarker j = 91 → j = 0 := by
  decide

theorem productMarker_ne_108 : ∀ j, j < 9 → byteAt productMarker j ≠ 108 := by
  decide

/-! Concrete buffers used by the counterexamples and witnesses. -/

/-- A fully readable boot-image header at the unaligned offset 1. -/
def c1buf : List Nat := 0 :: androidMagic ++ List.replicate 32 0

/-- A sparse-image header with block size 4 and total block count 8. -/
def c3buf : List Nat := sparseMagic ++ List.replicate 8 0 ++ [4, 0, 0, 0] ++ [8, 0, 0, 0]

/-- A 40-byte buffer holding one all-zero boot-image header. -/
def c4buf : List Nat := androidMagic ++ List.replicate 32 0

def memAdapterName : List Nat :=
  [108, 105, 98, 77, 101, 109, 65, 100, 97, 112, 116, 101, 114, 46, 115, 111]

/-- A 32-bit ET_DYN ELF header at offset 0 followed by the allow-listed name
libMemAdapter.so inside the 10000-byte window. -/
def c5buf : List Nat := elfMagic ++ [1] ++ List.replicate 11 0 ++ [3, 0] ++
  memAdapterName ++ List.replicate 96 0

/-- A configuration marker, 600 printable bytes, exactly 10 nulls, then more
printable data. -/
def c6buf : List Nat := productMarker ++ List.replicate 600 97 ++ List.replicate 10 0 ++
  List.replicate 11 98

/-- A boot-image magic with no readable header fields behind it. -/
def c7buf : List Nat := androidMagic

/-- A 512-aligned boot-image header with kernel size 1000, ramdisk size 2048,
secondary size 0 and page-size field 0. -/
def w1buf : List Nat := androidMagic ++ [232, 3, 0, 0] ++ List.replicate 4 0 ++
  [0, 8, 0, 0] ++ List.replicate 4 0 ++ [0, 0, 0, 0] ++ List.replicate 8 0 ++ [0, 0, 0, 0]

def libVEName : List Nat := [108, 105, 98, 86, 69, 46, 115, 111]

/-- A 64-bit ET_DYN ELF header with section-header offset 3000, entry size 64
and entry count 10, followed by the allow-listed name libVE.so. -/
def w2buf : List Nat := elfMagic ++ [2] ++ List.replicate 11 0 ++ [3, 0] ++
  List.replicate 22 0 ++ [184, 11, 0, 0, 0, 0, 0, 0] ++ List.replicate 10 0 ++
  [64, 0] ++ [10, 0] ++ List.replicate 8 0 ++ libVEName ++ List.replicate 122 0

def w3buf : List Nat := sparseMagic ++ List.replicate 8 0 ++ [4, 0, 0, 0] ++ [8, 0, 0, 0]

def w5buf : List Nat := elfMagic ++ [2] ++ List.replicate 11 0 ++ [3, 0] ++
  List.replicate 22 0 ++ [184, 11, 0, 0, 0, 0, 0, 0] ++ List.replicate 10 0 ++
  [64, 0] ++ [10, 0] ++ List.replicate 8 0 ++ libVEName ++ List.replicate 122 0

/-- A marker plus 591 printable bytes plus 10 nulls at the end of the buffer. -/
def w6buf : List Nat := productMarker ++ List.replicate 591 97 ++ List.replicate 10 0

/-- A marker plus 591 printable bytes plus 11 nulls at the end of the buffer. -/
def w6fbuf : List Nat := productMarker ++ List.replicate 591 97 ++ List.replicate 11 0

/-- A build-property marker, property bytes with single-null separators, then
a quadruple null. -/
def w8buf : List Nat := propMarker ++ [97, 0, 98, 0, 99] ++ [0, 0, 0, 0] ++ [100]

def w8out : List Nat :=
  [114, 111, 46, 98, 117, 105, 108, 100, 46, 105, 100, 61, 97, 10, 98, 10, 99]

def w9buf : List Nat := androidMagic ++ List.replicate 32 0

/-- A 25-byte printable run terminated by one null byte. -/
def w10buf : List Nat := List.replicate 25 66 ++ [0]

theorem c6buf_len : c6buf.length = 630 := by
  simp [c6buf, productMarker]

theorem c6buf_byte (j : Nat) : byteAt c6buf j =
    if j < 9 then byteAt productMarker j
    else if j < 609 then 97
    else if j < 619 then 0
    else if j < 630 then 98
    else 0 := by
  unfold c6buf
  by_cases h4 : j < 619
  · rw [byteAt_append_lt _ _ j (by simp [productMarker]; omega)]
    by_cases h3 : j < 609
    · rw [byteAt_append_lt _ _ j (by simp [productMarker]; omega)]
      by_cases h1 : j < 9
      · rw [byteAt_append_lt _ _ j (by simp [productMarker]; omega), if_pos h1]
      · rw [byteAt_append_ge _ _ j (by simp [productMarker]; omega)]
        have hm : productMarker.length = 9 := by simp [productMarker]
        rw [hm, byteAt_replicate]
        split_ifs <;> omega
    · rw [byteAt_append_ge _ _ j (by simp [productMarker]; omega)]
      have hl : (productMarker ++ List.replicate 600 97).length = 609 := by
        simp [productMarker]
      rw [hl, byteAt_replicate]
      split_ifs <;> omega
  · rw [byteAt_append_ge _ _ j (by simp [productMarker]; omega)]
    have hl : (productMarker ++ List.replicate 600 97 ++ List.replicate 10 0).length = 619 := by
      simp [productMarker]
    rw [hl, byteAt_replicate]
    split_ifs <;> omega

theorem w6buf_len : w6buf.length = 610 := by
  simp [w6buf, productMarker]

theorem w6buf_byte (j : Nat) : byteAt w6buf j =
    if j < 9 then byteAt productMarker j else if j < 600 then 97 else 0 := by
  unfold w6buf
  by_cases h2 : j < 600
  · rw [byteAt_append_lt _ _ j (by simp [productMarker]; omega)]
    by_cases h1 : j < 9
    · rw [byteAt_append_lt _ _ j (by simp [productMarker]; omega), if_pos h1]
    · rw [byteAt_append_ge _ _ j (by simp [productMarker]; omega)]
      have hm : productMarker.length = 9 := by simp [productMarker]
      rw [hm, byteAt_replicate]
      split_ifs <;> omega
  · rw [byteAt_append_ge _ _ j (by simp [productMarker]; omega)]
    have hl : (productMarker ++ List.replicate 591 97).length = 600 := by
      simp [productMarker]
    rw [hl, byteAt_replicate]
    split_ifs <;> omega

theorem w6fbuf_len : w6fbuf.length = 611 := by
  simp [w6fbuf, productMarker]

theorem w6fbuf_byte (j : Nat) : byteAt w6fbuf j =
    if j < 9 then byteAt productMarker j else if j < 600 then 97 else 0 := by
  unfold w6fbuf
  by_cases h2 : j < 600
  · rw [byteAt_append_lt _ _ j (by simp [productMarker]; omega)]
    by_cases h1 : j < 9
    · rw [byteAt_append_lt _ _ j (by simp [productMarker]; omega), if_pos h1]
    · rw [byteAt_append_ge _ _ j (by simp [productMarker]; omega)]
      have hm : productMarker.length = 9 := by simp [productMarker]
      rw [hm, byteAt_replicate]
      split_ifs <;> omega
  · rw [byteAt_append_ge _ _ j (by simp [productMarker]; omega)]
    have hl : (productMarker ++ List.replicate 591 97).length = 600 := by
      simp [productMarker]
    rw [hl, byteAt_replicate]
    split_ifs <;> omega

/-! Claim theorems. -/

/-- Claim C1, counterexample: a buffer holding a fully readable boot-image
header at offset 1 (not a multiple of the 512-byte scan stride).  Both
scanners report no artifact at all, refuting the claim as stated for
arbitrary signature offsets. -/
theorem claim1_counterexample :
    pySlice c1buf 1 9 = androidMagic ∧ c1buf.length = 41 ∧
    AW.findPartitions c1buf = .ok [] ∧ Full.findAllPartitions c1buf = [] :=
  ⟨rfl, rfl, rfl, rfl⟩

/-- Claim C1 (amended): for a boot-image signature at a 512-aligned offset X
with a fully readable header declaring kernel size k, ramdisk size r,
secondary-image size s and page-size field pg (effective page p = 2048 when
pg = 0), the simplified scanner, whenever its scan completes without a decode
error, reports a boot artifact at X of size p + ceil(k/p)p + ceil(r/p)p
clamped to 64 MiB, and the full scanner reports a boot artifact at X of size
p + ceil(k/p)p + ceil(r/p)p + ceil(s/p)p clamped to 64 MiB. -/
theorem claim1_boot_extent (d : List Nat) (X k r s pg : Nat)
    (hmod : X % 512 = 0) (hlen : X + 40 ≤ d.length)
    (hmag : pySlice d X (X + 8) = androidMagic)
    (hk : u32 d (X + 8) = k) (hr : u32 d (X + 16) = r)
    (hs : u32 d (X + 24) = s) (hpg : u32 d (X + 36) = pg) :
    (∀ parts, AW.findPartitions d = .ok parts →
      (⟨"boot.img", X, min ((if pg = 0 then 2048 else pg) +
        alignUp k (if pg = 0 then 2048 else pg) +
        alignUp r (if pg = 0 then 2048 else pg)) (64 * 1024 * 1024),
        "boot.img"⟩ : AW.Partition) ∈ parts) ∧
    (⟨"boot.img", X, min ((if pg = 0 then 2048 else pg) +
      alignUp k (if pg = 0 then 2048 else pg) +
      alignUp r (if pg = 0 then 2048 else pg) +
      alignUp s (if pg = 0 then 2048 else pg)) (64 * 1024 * 1024)⟩ : Full.Part)
      ∈ Full.findAllPartitions d := by
  subst hk hr hs hpg
  constructor
  · intro parts hok
    exact findPartitionsGo_mem_boot d X hlen hmag (d.length / 512 + 1) 0 parts
      (by omega) (by omega) (by omega) hok
  · have hmem := findAllGo_mem_boot d X hlen hmag (d.length / 512 + 1) 0
      (by omega) (by omega) (by omega)
    rwa [getBootImgSize_eq d X _ _ _ _ hlen rfl rfl rfl rfl] at hmem

/-- Claim C1, witness: the amended theorem applied to a concrete aligned
buffer with kernel size 1000, ramdisk size 2048 and default page size. -/
theorem claim1_witness :
    (⟨"boot.img", 0, 6144⟩ : Full.Part) ∈ Full.findAllPartitions w1buf :=
  (claim1_boot_extent w1buf 0 1000 2048 0 0 (by decide) (by decide) (by decide)
    (by decide) (by decide) (by decide) (by decide)).2

/-- Claim C2: every library artifact the full scanner reports sits at an ELF
magic whose type field is ET_DYN and carries the estimated size; the size
estimator reads the section-header fields at the 64-bit or 32-bit offsets
selected by the class byte and yields sh_offset + sh_entsize * sh_num exactly
when that value lies in [1000, 50 MiB], the fixed 2 MiB default otherwise,
including every case in which a field cannot be decoded. -/
theorem claim2_elf_extent (d : List Nat) :
    (∀ rec ∈ Full.extractLibsFromData d,
      pySlice d rec.offset (rec.offset + 4) = elfMagic ∧
      u16 d (rec.offset + 16) = 3 ∧ rec.size = Full.estimateElfSize d rec.offset) ∧
    (∀ off, off + 62 ≤ d.length → byteAt d (off + 4) = 2 →
      Full.estimateElfSize d off =
        (if u64 d (off + 40) + u16 d (off + 58) * u16 d (off + 60) < 1000 ∨
            50 * 1024 * 1024 < u64 d (off + 40) + u16 d (off + 58) * u16 d (off + 60)
          then 2 * 1024 * 1024
          else u64 d (off + 40) + u16 d (off + 58) * u16 d (off + 60))) ∧
    (∀ off, off + 50 ≤ d.length → off + 4 < d.length → byteAt d (off + 4) ≠ 2 →
      Full.estimateElfSize d off =
        (if u32 d (off + 32) + u16 d (off + 46) * u16 d (off + 48) < 1000 ∨
            50 * 1024 * 1024 < u32 d (off + 32) + u16 d (off + 46) * u16 d (off + 48)
          then 2 * 1024 * 1024
          else u32 d (off + 32) + u16 d (off + 46) * u16 d (off + 48))) ∧
    (∀ off, d.length ≤ off + 4 → Full.estimateElfSize d off = 2 * 1024 * 1024) ∧
    (∀ off, off + 4 < d.length → byteAt d (off + 4) = 2 → d.length < off + 62 →
      Full.estimateElfSize d off = 2 * 1024 * 1024) ∧
    (∀ off, off + 4 < d.length → byteAt d (off + 4) ≠ 2 → d.length < off + 50 →
      Full.estimateElfSize d off = 2 * 1024 * 1024) := by
  refine ⟨?_, ?_, ?_, ?_, ?_, ?_⟩
  · intro rec hrec
    have hc := extractLibsGo_sound d (d.length + 1) 0 rec hrec
    obtain ⟨h1, h2, _, _, _, h6⟩ := libCandidate_char d rec.offset rec hc
    exact ⟨h1, h2, h6⟩
  · intro off h1 h2
    rw [estimateElfSize_eq64 d off h1 h2]
    rfl
  · intro off h1 _ h2
    rw [estimateElfSize_eq32 d off h1 h2]
    rfl
  · intro off h1
    exact estimateElfSize_default_short d off h1
  · intro off h1 h2 h3
    exact estimateElfSize_default64 d off h1 h2 h3
  · intro off h1 h2 h3
    exact estimateElfSize_default32 d off h1 h2 h3

/-- Claim C2, witness: the theorem applied to a concrete 64-bit dynamic ELF
buffer whose computed size 3000 + 64 * 10 = 3640 lies inside the sanity range,
and to the empty buffer where decoding fails. -/
theorem claim2_witness :
    (pySlice w2buf 0 4 = elfMagic ∧ u16 w2buf 16 = 3 ∧
      (⟨libVEName, 0, 3640⟩ : Full.LibRecord).size = Full.estimateElfSize w2buf 0) ∧
    Full.estimateElfSize w2buf 0 = 3640 ∧
    Full.estimateElfSize ([] : List Nat) 0 = 2 * 1024 * 1024 := by
  refine ⟨?_, ?_, ?_⟩
  · exact (claim2_elf_extent w2buf).1 ⟨libVEName, 0, 3640⟩ (by decide)
  · have h := (claim2_elf_extent w2buf).2.1 0 (by decide) (by decide)
    rw [h]
    decide
  · exact (claim2_elf_extent ([] : List Nat)).2.2.2.1 0 (by decide)

/-- Claim C3, counterexample: a buffer with a sparse-image magic at offset 0,
block size 4 and block count 8.  The simplified scanner reports the sparse
artifact with size 0, not min(4 * 8, 1 GiB) = 32, refuting the claim as stated
over both cited scanners; the full scanner does report 32. -/
theorem claim3_counterexample :
    pySlice c3buf 0 4 = sparseMagic ∧ c3buf.length = 20 ∧
    u32 c3buf 12 = 4 ∧ u32 c3buf 16 = 8 ∧
    AW.findPartitions c3buf = .ok [⟨"sparse", 0, 0, "sparse_00000000.img"⟩] ∧
    Full.findAllPartitions c3buf = [⟨"sparse", 0, 32⟩] ∧
    min (8 * 4) (1024 * 1024 * 1024) = 32 :=
  ⟨rfl, rfl, rfl, rfl, rfl, rfl, rfl⟩

/-- Claim C3 (amended): for a sparse-image magic at a 512-aligned offset X
with readable block-size field b and total-block-count field c, the full
scanner reports a sparse artifact at X of size min(c * b, 1 GiB), and an
unreadable field pair yields the fixed 512 MiB default; the simplified
scanner records every sparse artifact with size 0. -/
theorem claim3_sparse_extent (d : List Nat) (X b c : Nat)
    (hmod : X % 512 = 0) (hlen : X + 20 ≤ d.length)
    (hmag : pySlice d X (X + 4) = sparseMagic)
    (hb : u32 d (X + 12) = b) (hc : u32 d (X + 16) = c) :
    (⟨"sparse", X, min (c * b) (1024 * 1024 * 1024)⟩ : Full.Part) ∈
      Full.findAllPartitions d ∧
    (∀ d2 X2, d2.length < X2 + 20 → Full.getSparseSize d2 X2 = 512 * 1024 * 1024) ∧
    (∀ parts p, AW.findPartitions d = .ok parts → p ∈ parts → p.type = "sparse" →
      p.size = 0) := by
  subst hb hc
  refine ⟨?_, ?_, ?_⟩
  · have hmem := findAllGo_mem_sparse d X hlen hmag (d.length / 512 + 1) 0
      (by omega) (by omega) (by omega)
    rwa [getSparseSize_eq d X _ _ hlen rfl rfl] at hmem
  · intro d2 X2 h
    exact getSparseSize_default d2 X2 h
  · intro parts p hok hp ht
    exact (findPartitionsGo_sound d (d.length / 512 + 1) 0 parts hok p hp).2 ht

/-- Claim C3, witness: the amended theorem applied to a concrete sparse
header with block size 4 and block count 8, and to the empty buffer for the
default. -/
theorem claim3_witness :
    (⟨"sparse", 0, 32⟩ : Full.Part) ∈ Full.findAllPartitions w3buf ∧
    Full.getSparseSize ([] : List Nat) 0 = 512 * 1024 * 1024 := by
  have h := claim3_sparse_extent w3buf 0 4 8 (by decide) (by decide) (by decide)
    (by decide) (by decide)
  exact ⟨h.1, h.2.1 [] 0 (by decide)⟩

/-- Claim C4, counterexample: a 40-byte buffer holding an all-zero boot-image
header.  The full scanner reports the boot artifact with size 2048, so
offset + size = 2048 exceeds the 40-byte buffer length, refuting the claimed
invariant offset + size <= buffer length. -/
theorem claim4_counterexample :
    Full.findAllPartitions c4buf = [⟨"boot.img", 0, 2048⟩] ∧
    c4buf.length = 40 ∧ c4buf.length < 0 + 2048 :=
  ⟨rfl, rfl, by decide⟩

/-- Claim C4 (amended): every reported artifact keeps the kind-specific size
cap (64 MiB for a boot image, 1 GiB for a sparse image, zero for a gzip
region, 50 MiB for a library, and zero for a simplified-variant sparse
record), but offset + size is not bounded by the buffer length. -/
theorem claim4_size_caps (d : List Nat) :
    (∀ p ∈ Full.findAllPartitions d,
      (p.type = "boot.img" → p.size ≤ 64 * 1024 * 1024) ∧
      (p.type = "sparse" → p.size ≤ 1024 * 1024 * 1024) ∧
      (p.type = "gzip" → p.size = 0)) ∧
    (∀ rec ∈ Full.extractLibsFromData d, rec.size ≤ 50 * 1024 * 1024) ∧
    (∀ parts, AW.findPartitions d = .ok parts → ∀ p ∈ parts,
      (p.type = "boot.img" → p.size ≤ 64 * 1024 * 1024) ∧
      (p.type = "sparse" → p.size = 0)) := by
  refine ⟨?_, ?_, ?_⟩
  · intro p hp
    obtain ⟨o, ho⟩ := findAllGo_sound d (d.length / 512 + 1) 0 p hp
    obtain ⟨-, hdis⟩ := partAt_sound d o p ho
    rcases hdis with ⟨ht, hsz⟩ | ⟨ht, hsz⟩ | ⟨ht, hsz⟩
    · refine ⟨fun _ => hsz ▸ getBootImgSize_le d o, fun hc => ?_, fun hc => ?_⟩
      · rw [ht] at hc; exact absurd hc (by simp)
      · rw [ht] at hc; exact absurd hc (by simp)
    · refine ⟨fun hc => ?_, fun _ => hsz ▸ getSparseSize_le d o, fun hc => ?_⟩
      · rw [ht] at hc; exact absurd hc (by simp)
      · rw [ht] at hc; exact absurd hc (by simp)
    · refine ⟨fun hc => ?_, fun hc => ?_, fun _ => hsz⟩
      · rw [ht] at hc; exact absurd hc (by simp)
      · rw [ht] at hc; exact absurd hc (by simp)
  · intro rec hrec
    have hc := extractLibsGo_sound d (d.length + 1) 0 rec hrec
    have h6 := (libCandidate_char d rec.offset rec hc).2.2.2.2.2
    rw [h6]
    exact (estimateElfSize_bounds d rec.offset).2
  · intro parts hok p hp
    exact findPartitionsGo_sound d (d.length / 512 + 1) 0 parts hok p hp

/-- Claim C4, witness: the amended theorem applied to the concrete boot
record of the counterexample buffer. -/
theorem claim4_witness :
    (⟨"boot.img", 0, 2048⟩ : Full.Part).size ≤ 64 * 1024 * 1024 :=
  ((claim4_size_caps c4buf).1 ⟨"boot.img", 0, 2048⟩ (by decide)).1 rfl

/-- Claim C5, counterexample: a dynamic-ELF candidate whose 10000-byte window
contains the allow-listed name libMemAdapter.so.  The name search finds it,
yet the scanner reports nothing, because the secondary substring filter
(mali, Mali, cedar, gralloc, hwcomposer, VE, UMP, sun8i) rejects that name,
refuting the claimed if-and-only-if. -/
theorem claim5_counterexample :
    pySlice c5buf 0 4 = elfMagic ∧ u16 c5buf 16 = 3 ∧
    memAdapterName ∈ Full.libNamePatterns ∧
    occursIn memAdapterName (pySlice c5buf 0 10000) = true ∧
    Full.findLibName c5buf 0 = some memAdapterName ∧
    c5buf.length = 130 ∧
    Full.extractLibsFromData c5buf = [] :=
  ⟨rfl, rfl, by decide, by decide, by decide, rfl, rfl⟩

/-- Claim C5 (amended): a dynamic-ELF candidate is reported exactly when the
first allow-listed name occurring in its 10000-byte window also passes the
substring filter over {mali, Mali, cedar, gralloc, hwcomposer, VE, UMP,
sun8i}; the reported name is that first occurring allow-list token and the
size is the estimated ELF size; candidates with no occurring allow-list name,
or whose found name fails the filter, are discarded silently. -/
theorem claim5_lib_naming (d : List Nat) (off : Nat) :
    (∀ rec, Full.libCandidate d off = some rec →
      Full.findLibName d off = some rec.name ∧ rec.name ∈ Full.libNamePatterns ∧
      occursIn rec.name (pySlice d off (off + 10000)) = true ∧
      Full.nameFilter rec.name = true ∧ rec.offset = off ∧
      rec.size = Full.estimateElfSize d off) ∧
    (∀ nm, pySlice d off (off + 4) = elfMagic → u16 d (off + 16) = 3 →
      Full.findLibName d off = some nm →
      (Full.nameFilter nm = true →
        Full.libCandidate d off = some ⟨nm, off, Full.estimateElfSize d off⟩) ∧
      (Full.nameFilter nm = false → Full.libCandidate d off = none)) ∧
    (pySlice d off (off + 4) = elfMagic → u16 d (off + 16) = 3 →
      Full.findLibName d off = none → Full.libCandidate d off = none) := by
  refine ⟨?_, ?_, ?_⟩
  · intro rec hc
    obtain ⟨h1, h2, h3, h4, h5, h6⟩ := libCandidate_char d off rec hc
    have h3a : List.find? (fun q => occursIn q (pySlice d off (off + 10000)))
        Full.libNamePatterns = some rec.name := h3
    have hocc := List.find?_some h3a
    exact ⟨h3, List.mem_of_find?_eq_some h3a, hocc, h4, h5, h6⟩
  · intro nm h1 h2 hn
    constructor
    · intro h3
      simp [Full.libCandidate, h1, h2, hn, h3]
    · intro h3
      simp [Full.libCandidate, h1, h2, hn, h3]
  · intro h1 h2 hn
    simp [Full.libCandidate, h1, h2, hn]

/-- Claim C5, witness: the amended theorem applied to a concrete candidate
whose window holds libVE.so, which passes the filter and is reported. -/
theorem claim5_witness :
    Full.libCandidate w5buf 0 = some ⟨libVEName, 0, 3640⟩ := by
  have h := ((claim5_lib_naming w5buf 0).2.1 libVEName (by decide) (by decide)
    (by decide)).1 (by decide)
  exact h

/-- Claim C6, counterexample: a configuration marker followed by 600
printable bytes and then exactly 10 consecutive null bytes.  The full
variant does not stop at that null run (its scan stops only at an eleventh
consecutive null), so the single extracted block spans 630 bytes, not the
600 the claim demands. -/
theorem claim6_counterexample :
    pySlice c6buf 0 9 = productMarker ∧
    pySlice c6buf 9 609 = List.replicate 600 97 ∧
    pySlice c6buf 609 619 = List.replicate 10 0 ∧
    byteAt c6buf 619 = 98 ∧
    (Full.extractFexConfigs c6buf).map (fun blk => blk.stop - blk.offset) = [630] := by
  have hA : ∀ i, i < 609 → byteAt c6buf (0 + i) ≠ 0 := by
    intro i hi
    rw [Nat.zero_add, c6buf_byte]
    by_cases h1 : i < 9
    · rw [if_pos h1]
      exact fun hc => absurd hc (by have := productMarker_printable i h1; omega)
    · rw [if_neg h1, if_pos (by omega)]
      omega
  have hB : ∀ i, i < 10 → byteAt c6buf (609 + i) = 0 := by
    intro i hi
    rw [c6buf_byte, if_neg (by omega), if_neg (by omega), if_pos (by omega)]
  have hC : ∀ i, i < 11 → byteAt c6buf (619 + i) ≠ 0 := by
    intro i hi
    rw [c6buf_byte, if_neg (by omega), if_neg (by omega), if_neg (by omega),
      if_pos (by omega)]
    omega
  have hend : Full.fexEnd c6buf 0 = 630 := by
    unfold Full.fexEnd
    rw [c6buf_len]
    rw [fexEndGo_Full_nonzero_stretch c6buf 0 609 (630 + 1) 0 0 hA
      (by rw [c6buf_len]; omega) (by omega) (by omega)]
    rw [show (630 + 1 - 609 : Nat) = 22 from rfl, show (0 + 609 : Nat) = 609 from rfl,
      show (if (609 : Nat) = 0 then (0 : Nat) else 0) = 0 from rfl]
    rw [fexEndGo_Full_zero_stretch c6buf 0 10 22 609 0 hB (by omega)
      (by rw [c6buf_len]; omega) (by omega) (by omega)]
    rw [show (22 - 10 : Nat) = 12 from rfl, show (609 + 10 : Nat) = 619 from rfl,
      show (0 + 10 : Nat) = 10 from rfl]
    rw [fexEndGo_Full_nonzero_stretch c6buf 0 11 12 619 10 hC
      (by rw [c6buf_len]) (by omega) (by omega)]
    rw [show (12 - 11 : Nat) = 1 from rfl, show (619 + 11 : Nat) = 630 from rfl,
      show (if (11 : Nat) = 0 then (10 : Nat) else 0) = 0 from rfl]
    exact fexEndGo_Full_stop c6buf 0 1 630 0 (by rw [c6buf_len]; omega)
  have hcand : Full.fexCandidate c6buf 0 =
      some ⟨0, 630, (pySlice c6buf 0 630).filter (fun b => b != 0)⟩ := by
    unfold Full.fexCandidate
    rw [hend, if_pos (by omega)]
  have hplat : findFrom c6buf platformMarker 0 = none := by
    apply findFrom_none_of
    intro s heq
    have hlen10 : s + 10 ≤ 630 := by
      have := congrArg List.length heq
      rw [pySlice_length, c6buf_len] at this
      simp [platformMarker] at this
      omega
    have h2 : byteAt c6buf (s + 2) = 108 := by
      have h0 : (2 : Nat) < (pySlice c6buf s (s + platformMarker.length)).length := by
        rw [heq]; simp [platformMarker]
      have := pySlice_getD c6buf s (s + platformMarker.length) 2 h0
      rw [heq] at this
      simpa [platformMarker] using this.symm
    rw [c6buf_byte] at h2
    by_cases h3 : s + 2 < 9
    · rw [if_pos h3] at h2
      exact productMarker_ne_108 (s + 2) h3 h2
    · rw [if_neg h3] at h2
      split_ifs at h2 <;> omega
  have htarg : findFrom c6buf targetMarker 0 = none := by
    apply findFrom_none_of
    intro s heq
    have hlen8 : s + 8 ≤ 630 := by
      have := congrArg List.length heq
      rw [pySlice_length, c6buf_len] at this
      simp [targetMarker] at this
      omega
    have h0slice : byteAt c6buf s = 91 := by
      have h0 : (0 : Nat) < (pySlice c6buf s (s + targetMarker.length)).length := by
        rw [heq]; simp [targetMarker]
      have := pySlice_getD c6buf s (s + targetMarker.length) 0 h0
      rw [heq] at this
      simpa [targetMarker] using this.symm
    have hs0 : s = 0 := by
      rw [c6buf_byte] at h0slice
      by_cases h3 : s < 9
      · rw [if_pos h3] at h0slice
        exact productMarker_ne_91 s h3 h0slice
      · rw [if_neg h3] at h0slice
        split_ifs at h0slice <;> omega
    subst hs0
    have h1slice : byteAt c6buf 1 = 116 := by
      have h0 : (1 : Nat) < (pySlice c6buf 0 (0 + targetMarker.length)).length := by
        rw [heq]; simp [targetMarker]
      have := pySlice_getD c6buf 0 (0 + targetMarker.length) 1 h0
      rw [heq] at this
      simpa [targetMarker] using this.symm
    rw [c6buf_byte, if_pos (by omega)] at h1slice
    have : byteAt productMarker 1 = 112 := by decide
    omega
  have hff0 : findFrom c6buf productMarker 0 = some 0 := rfl
  have hff630 : findFrom c6buf productMarker 630 = none := rfl
  have hr1 : Full.fexLoopGo c6buf productMarker (630 + 2) 0 [] =
      ([0], [⟨0, 630, (pySlice c6buf 0 630).filter (fun b => b != 0)⟩]) := by
    rw [show (630 + 2 : Nat) = (630 + 1) + 1 from rfl, fexLoopGo_Full_step]
    simp only [hff0, List.not_mem_nil, if_false, hcand, hend, List.nil_append]
    rw [show (630 + 1 : Nat) = 630 + 1 from rfl, fexLoopGo_Full_step]
    simp only [hff630]
  have hr2 : Full.fexLoopGo c6buf platformMarker (630 + 2) 0 [0] = ([0], []) := by
    rw [show (630 + 2 : Nat) = (630 + 1) + 1 from rfl, fexLoopGo_Full_step]
    simp only [hplat]
  have hr3 : Full.fexLoopGo c6buf targetMarker (630 + 2) 0 [0] = ([0], []) := by
    rw [show (630 + 2 : Nat) = (630 + 1) + 1 from rfl, fexLoopGo_Full_step]
    simp only [htarg]
  have hfinal : Full.extractFexConfigs c6buf =
      [⟨0, 630, (pySlice c6buf 0 630).filter (fun b => b != 0)⟩] := by
    unfold Full.extractFexConfigs
    rw [c6buf_len]
    rw [hr1]
    simp only [hr2, hr3]
    rfl
  refine ⟨rfl, rfl, rfl, rfl, ?_⟩
  rw [hfinal]
  rfl

/-- Claim C6 (amended): in the simplified variant a printable stretch of n
bytes starting at the marker position and ending at a run of 10 null bytes
is extracted as a block spanning exactly those n bytes, whose data holds
only printable bytes; in the full variant the scan stops only at the
eleventh consecutive null, so the same layout with 11 trailing nulls yields
a block stopping after the first 10 nulls whose emitted bytes are exactly
the n printable ones; in both variants a candidate whose span is at or
below the minimum (100 simplified, 500 full) is discarded. -/
theorem claim6_fex_spans (d : List Nat) (pos n : Nat) :
    (100 < n → n < 100000 → pos + n + 10 ≤ d.length →
      (∀ i, i < n → 32 ≤ byteAt d (pos + i) ∧ byteAt d (pos + i) < 127) →
      (∀ i, i < 10 → byteAt d (pos + n + i) = 0) →
      AW.fexCandidate d pos = some ⟨pos, n, pySlice d pos (pos + n)⟩ ∧
      ∀ b ∈ pySlice d pos (pos + n), 32 ≤ b ∧ b < 127) ∧
    (490 < n → n + 10 < 100000 → pos + n + 11 ≤ d.length →
      (∀ i, i < n → 32 ≤ byteAt d (pos + i) ∧ byteAt d (pos + i) < 127) →
      (∀ i, i < 11 → byteAt d (pos + n + i) = 0) →
      Full.fexCandidate d pos = some ⟨pos, pos + n + 10, pySlice d pos (pos + n)⟩) ∧
    (AW.fexEnd d pos ≤ pos + 100 → AW.fexCandidate d pos = none) ∧
    (Full.fexEnd d pos ≤ pos + 500 → Full.fexCandidate d pos = none) := by
  refine ⟨?_, ?_, ?_, ?_⟩
  · intro h100 hcap hlen hpr hnull
    have hend : AW.fexEnd d pos = pos + n :=
      fexEndGo_AW_reach d pos n hcap hlen hpr hnull (d.length + 1) pos (le_refl _)
        (by omega) (by omega)
    constructor
    · unfold AW.fexCandidate
      rw [hend, if_pos (by omega), show pos + n - pos = n by omega]
    · intro b hb
      obtain ⟨i, hi, rfl⟩ := pySlice_mem d pos n (by omega) b hb
      exact hpr i hi
  · intro h490 hcap hlen hpr hnull
    have hpr0 : ∀ i, i < n → byteAt d (pos + i) ≠ 0 := by
      intro i hi
      have := hpr i hi
      omega
    have hend : Full.fexEnd d pos = pos + n + 10 := by
      have := fexEndGo_Full_print d pos n hcap hlen hpr0 hnull (d.length + 1) 0
        (by omega) (by omega)
      simpa [Full.fexEnd] using this
    have hfil : (pySlice d pos (pos + n + 10)).filter (fun b => b != 0) =
        pySlice d pos (pos + n) := by
      rw [pySlice_append d pos (pos + n) (pos + n + 10) (by omega) (by omega),
        List.filter_append]
      have h1 : (pySlice d pos (pos + n)).filter (fun b => b != 0) =
          pySlice d pos (pos + n) := by
        apply List.filter_eq_self.mpr
        intro a ha
        obtain ⟨i, hi, rfl⟩ := pySlice_mem d pos n (by omega) a ha
        have := hpr0 i hi
        simpa using this
      have h2 : (pySlice d (pos + n) (pos + n + 10)).filter (fun b => b != 0) = [] := by
        apply List.filter_eq_nil_iff.mpr
        intro a ha
        obtain ⟨i, hi, rfl⟩ := pySlice_mem d (pos + n) 10 (by omega) a ha
        simp [hnull i (by omega)]
      rw [h1, h2, List.append_nil]
    unfold Full.fexCandidate
    rw [hend, if_pos (by omega), hfil]
  · intro h
    unfold AW.fexCandidate
    rw [if_neg (by omega)]
  · intro h
    unfold Full.fexCandidate
    rw [if_neg (by omega)]

/-- Claim C6, witness: the amended theorem applied to concrete buffers with
591 printable bytes after the marker followed by 10 (simplified) or 11
(full) null bytes. -/
theorem claim6_witness :
    AW.fexCandidate w6buf 0 = some ⟨0, 600, pySlice w6buf 0 600⟩ ∧
    Full.fexCandidate w6fbuf 0 = some ⟨0, 610, pySlice w6fbuf 0 600⟩ := by
  have hp6 : ∀ i, i < 600 → 32 ≤ byteAt w6buf (0 + i) ∧ byteAt w6buf (0 + i) < 127 := by
    intro i hi
    rw [Nat.zero_add, w6buf_byte]
    by_cases h1 : i < 9
    · rw [if_pos h1]
      exact productMarker_printable i h1
    · rw [if_neg h1, if_pos hi]
      omega
  have hn6 : ∀ i, i < 10 → byteAt w6buf (0 + 600 + i) = 0 := by
    intro i hi
    rw [w6buf_byte, if_neg (by omega), if_neg (by omega)]
  have hp6f : ∀ i, i < 600 → 32 ≤ byteAt w6fbuf (0 + i) ∧ byteAt w6fbuf (0 + i) < 127 := by
    intro i hi
    rw [Nat.zero_add, w6fbuf_byte]
    by_cases h1 : i < 9
    · rw [if_pos h1]
      exact productMarker_printable i h1
    · rw [if_neg h1, if_pos hi]
      omega
  have hn6f : ∀ i, i < 11 → byteAt w6fbuf (0 + 600 + i) = 0 := by
    intro i hi
    rw [w6fbuf_byte, if_neg (by omega), if_neg (by omega)]
  constructor
  · exact ((claim6_fex_spans w6buf 0 600).1 (by omega) (by omega)
      (by rw [w6buf_len]) hp6 hn6).1
  · exact (claim6_fex_spans w6fbuf 0 600).2.1 (by omega) (by omega)
      (by rw [w6fbuf_len]) hp6f hn6f

/-- Claim C7, counterexample: a buffer holding only the 8 boot-image magic
bytes.  The simplified scanner hits the signature, the kernel-size field
read fails, and the uncaught decode error aborts the whole scan, refuting
the claim that no field-decode failure propagates. -/
theorem claim7_counterexample :
    pySlice c7buf 0 8 = androidMagic ∧ AW.findPartitions c7buf = .error () :=
  ⟨rfl, rfl⟩

/-- Claim C7 (amended): in the full variant every fixed-offset field-decode
failure is absorbed inside the estimator, which substitutes the kind-specific
default (16 MiB boot, 512 MiB sparse, 2 MiB library) and never propagates;
in the simplified variant a boot-header decode failure aborts the scan. -/
theorem claim7_default_extents (d : List Nat) (off : Nat) :
    (d.length < off + 40 → Full.getBootImgSize d off = 16 * 1024 * 1024) ∧
    (d.length < off + 20 → Full.getSparseSize d off = 512 * 1024 * 1024) ∧
    (d.length ≤ off + 4 → Full.estimateElfSize d off = 2 * 1024 * 1024) :=
  ⟨fun h => getBootImgSize_default d off h,
   fun h => getSparseSize_default d off h,
   fun h => estimateElfSize_default_short d off h⟩

/-- Claim C7, witness: the amended theorem applied to the empty buffer. -/
theorem claim7_witness :
    Full.getBootImgSize ([] : List Nat) 0 = 16 * 1024 * 1024 ∧
    Full.getSparseSize ([] : List Nat) 0 = 512 * 1024 * 1024 ∧
    Full.estimateElfSize ([] : List Nat) 0 = 2 * 1024 * 1024 :=
  ⟨(claim7_default_extents [] 0).1 (by decide),
   (claim7_default_extents [] 0).2.1 (by decide),
   (claim7_default_extents [] 0).2.2 (by decide)⟩

/-- Claim C8: when the build-property marker occurs first at position s, the
extracted block starts at s, ends at the first quadruple-null slice (full
variant) or double-null slice (simplified variant) at or after s, or where
the 20000-byte (resp. 10000-byte) window or the buffer is exhausted; the
emitted bytes are the block with every null byte replaced by a newline, and
contain no null byte. -/
theorem claim8_build_prop (d outF outA : List Nat) (s : Nat)
    (hf : findFrom d propMarker 0 = some s) :
    (Full.extractBuildProp d = some outF →
      pySlice d s (s + 12) = propMarker ∧
      (∀ j, j < s → pySlice d j (j + 12) ≠ propMarker) ∧
      s ≤ AW.propEnd d [0, 0, 0, 0] 20000 s ∧
      (∀ j, s ≤ j → j < AW.propEnd d [0, 0, 0, 0] 20000 s →
        pySlice d j (j + 4) ≠ [0, 0, 0, 0]) ∧
      (pySlice d (AW.propEnd d [0, 0, 0, 0] 20000 s)
          (AW.propEnd d [0, 0, 0, 0] 20000 s + 4) = [0, 0, 0, 0] ∨
        d.length ≤ AW.propEnd d [0, 0, 0, 0] 20000 s ∨
        20000 ≤ AW.propEnd d [0, 0, 0, 0] 20000 s - s) ∧
      outF = (pySlice d s (AW.propEnd d [0, 0, 0, 0] 20000 s)).map nullToNl ∧
      (∀ b ∈ outF, b ≠ 0)) ∧
    (AW.extractBuildProp d = some outA →
      pySlice d s (s + 12) = propMarker ∧
      (∀ j, j < s → pySlice d j (j + 12) ≠ propMarker) ∧
      s ≤ AW.propEnd d [0, 0] 10000 s ∧
      (∀ j, s ≤ j → j < AW.propEnd d [0, 0] 10000 s →
        pySlice d j (j + 2) ≠ [0, 0]) ∧
      (pySlice d (AW.propEnd d [0, 0] 10000 s)
          (AW.propEnd d [0, 0] 10000 s + 2) = [0, 0] ∨
        d.length ≤ AW.propEnd d [0, 0] 10000 s ∨
        10000 ≤ AW.propEnd d [0, 0] 10000 s - s) ∧
      outA = (pySlice d s (AW.propEnd d [0, 0] 10000 s)).map nullToNl ∧
      (∀ b ∈ outA, b ≠ 0)) := by
  have hchar := findFrom_char d propMarker 0 s hf
  constructor
  · intro hext
    have hout : outF = (pySlice d s (AW.propEnd d [0, 0, 0, 0] 20000 s)).map nullToNl := by
      simp only [Full.extractBuildProp, hf] at hext
      exact (Option.some.inj hext).symm
    obtain ⟨hq1, hq2, hq3⟩ :=
      propEndGo_char d [0, 0, 0, 0] 20000 s (d.length + 1) s (by omega)
    refine ⟨hchar.2.1, fun j hj => hchar.2.2 j (by omega) hj, hq1, hq2, hq3, hout, ?_⟩
    intro b hb
    rw [hout] at hb
    obtain ⟨a, -, rfl⟩ := List.mem_map.1 hb
    exact nullToNl_ne_zero a
  · intro hext
    have hout : outA = (pySlice d s (AW.propEnd d [0, 0] 10000 s)).map nullToNl := by
      simp only [AW.extractBuildProp, hf] at hext
      exact (Option.some.inj hext).symm
    obtain ⟨hq1, hq2, hq3⟩ :=
      propEndGo_char d [0, 0] 10000 s (d.length + 1) s (by omega)
    refine ⟨hchar.2.1, fun j hj => hchar.2.2 j (by omega) hj, hq1, hq2, hq3, hout, ?_⟩
    intro b hb
    rw [hout] at hb
    obtain ⟨a, -, rfl⟩ := List.mem_map.1 hb
    exact nullToNl_ne_zero a

/-- Claim C8, witness: the theorem applied to a concrete buffer whose marker
region holds single-null separators before a quadruple null; both variants
stop at position 17 and rewrite the separators to newlines. -/
theorem claim8_witness :
    pySlice w8buf 0 12 = propMarker ∧
    w8out = (pySlice w8buf 0 (AW.propEnd w8buf [0, 0, 0, 0] 20000 0)).map nullToNl ∧
    w8out = (pySlice w8buf 0 (AW.propEnd w8buf [0, 0] 10000 0)).map nullToNl := by
  have h1 := (claim8_build_prop w8buf w8out w8out 0 rfl).1 rfl
  have h2 := (claim8_build_prop w8buf w8out w8out 0 rfl).2 rfl
  exact ⟨h1.1, h1.2.2.2.2.2.1, h2.2.2.2.2.2.1⟩

/-- Claim C9: the partition scan and the library scan, presented as their
operational step relations, are deterministic: any two runs over the same
buffer from cursor zero produce the same report, element for element and in
the same order. -/
theorem claim9_determinism (d : List Nat) (r1 r2 : List Full.Part)
    (l1 l2 : List Full.LibRecord)
    (h1 : Full.ScanStep d 0 r1) (h2 : Full.ScanStep d 0 r2)
    (h3 : Full.LibStep d 0 l1) (h4 : Full.LibStep d 0 l2) :
    r1 = r2 ∧ l1 = l2 :=
  ⟨scanStep_det d 0 r1 r2 h1 h2, libStep_det d 0 l1 l2 h3 h4⟩

/-- Claim C9, witness: two runs of each scan over a concrete buffer agree. -/
theorem claim9_witness :
    Full.findAllPartitions w9buf = Full.findAllPartitions w9buf ∧
    Full.extractLibsFromData w9buf = Full.extractLibsFromData w9buf :=
  claim9_determinism w9buf _ _ _ _
    (scanStep_total w9buf (w9buf.length / 512 + 1) 0 (by decide))
    (scanStep_total w9buf (w9buf.length / 512 + 1) 0 (by decide))
    (libStep_total w9buf (w9buf.length + 1) 0 (by decide))
    (libStep_total w9buf (w9buf.length + 1) 0 (by decide))

/-- Claim C10: a run of printable ASCII bytes that reaches the end of the
buffer is never returned by the string extractor, whatever its length:
appending an all-printable tail to any buffer leaves the extracted string
list unchanged, and an all-printable buffer yields no strings at all. -/
theorem claim10_strings_drop_tail (d t : List Nat) (minLength : Nat)
    (ht : ∀ b ∈ t, 32 ≤ b ∧ b < 127) :
    AW.extractStrings (d ++ t) minLength = AW.extractStrings d minLength ∧
    AW.extractStrings t minLength = [] := by
  constructor
  · unfold AW.extractStrings
    exact extractStringsGo_append minLength t ht d []
  · unfold AW.extractStrings
    exact extractStringsGo_printable minLength t [] ht

/-- Claim C10, witness: appending thirty printable bytes to a buffer ending
in a null byte leaves the extraction unchanged. -/
theorem claim10_witness :
    AW.extractStrings (w10buf ++ List.replicate 30 65) 20 =
      AW.extractStrings w10buf 20 :=
  (claim10_strings_drop_tail w10buf (List.replicate 30 65) 20 (by decide)).1

end SmartPi
